import Mathlib

/-!
Verification development for the y-prosemirror synchronization engine
(src/plugins/sync-plugin.js).  The JavaScript source is shallowly embedded:

* JSON-like attribute values become the mutual inductive `AVal`/`AFields`;
  JavaScript objects are association lists in insertion order, written
  through `objSet` (overwrite in place, append new keys at the end),
  exactly like property assignment on a JS object.
* ProseMirror nodes become `PNode` (typed element nodes and text nodes with
  marks); Yjs shared nodes become `YNode`, where every node carries its
  item metadata: an identity `id` (standing for the object identity and
  the item id used as mapping key), the creating `client`, and a `deleted`
  tombstone flag.  `toArray` on a type is `visibleList` (tombstones are
  skipped but remain in the child list, as in Yjs).
* The binding metadata (mapping table, overlapping-mark cache, and the id
  allocator for freshly created shared types) is the `Meta` structure,
  threaded explicitly through every converter, as the source threads its
  `meta` argument.
* External collaborators that the source imports but whose code is not
  part of this repository (the ProseMirror schema, the hash function from
  utils.js, the document clientID) are parameters collected in `Ctx`.
* Recursive tree walks take an explicit fuel argument and return `none`
  when the fuel is exhausted; fuel exhaustion is always propagated and is
  distinct from every behavior of the source.  Loops over child lists are
  standalone functions structurally recursive on lists or on an explicit
  budget, so that all definitions compute by reduction.
* JavaScript strict equality on primitive values is value equality; on
  objects it is reference equality, which implies structural equality.  It
  is modelled by structural equality (`jsStrictEq`); every concrete input
  used in a theorem below either compares primitives or compares values
  that are reference-equal in the real execution.
-/

mutual
/-- Attribute values: the JSON-like values stored in ProseMirror attribute
maps, mark attribute maps and Yjs XML attribute maps. -/
inductive AVal where
  | null
  | bool (b : Bool)
  | str (s : String)
  | int (n : Int)
  | obj (fields : AFields)
deriving DecidableEq
inductive AFields where
  | nil
  | cons (k : String) (v : AVal) (tl : AFields)
deriving DecidableEq
end

def AFields.toList : AFields → List (String × AVal)
  | .nil => []
  | .cons k v tl => (k, v) :: tl.toList

def AFields.ofList : List (String × AVal) → AFields
  | [] => .nil
  | (k, v) :: tl => .cons k v (AFields.ofList tl)

/-- Lookup of a property on a JS object (first binding wins; a missing key
is the JS value undefined, modelled as `none`). -/
def objGet (m : List (String × AVal)) (k : String) : Option AVal :=
  (m.find? (fun kv => kv.1 == k)).map Prod.snd

/-- Property assignment on a JS object: overwrite in place if the key is
present, otherwise append the new binding at the end (JS insertion
order). -/
def objSet (m : List (String × AVal)) (k : String) (v : AVal) :
    List (String × AVal) :=
  if m.any (fun kv => kv.1 == k) then
    m.map (fun kv => if kv.1 == k then (k, v) else kv)
  else m ++ [(k, v)]

/-- Property deletion on a JS object. -/
def objErase (m : List (String × AVal)) (k : String) : List (String × AVal) :=
  m.filter (fun kv => kv.1 != k)

/-- Object spread: all bindings of the first object, updated and extended
by the second, as in a JS object literal with two spreads. -/
def objMergeJS (a b : List (String × AVal)) : List (String × AVal) :=
  b.foldl (fun acc kv => objSet acc kv.1 kv.2) a

/-- Model of the JS test typeof val === Object && val !== null. -/
def isObjectA : AVal → Bool
  | .obj _ => true
  | _ => false

/-- Fields of a value when it is an object; Object.keys of a primitive is
empty. -/
def avalFields : AVal → List (String × AVal)
  | .obj fs => fs.toList
  | _ => []

/-- Strict equality between two possibly-undefined JS values.  Primitives
compare by value; object references compare by identity, which implies
structural equality, and is modelled by structural equality. -/
def jsStrictEq (a b : Option AVal) : Bool := a == b

/-- Mark value of ProseMirror: a mark type (name and whether the type
excludes itself, i.e. mark.type.excludes(mark.type)) together with the
attribute map of this mark instance. -/
structure Mark where
  typeName : String
  excludesSelf : Bool
  attrs : List (String × AVal)
deriving DecidableEq

/-- Mark.toJSON of ProseMirror: an object with the type name, and with the
attrs object only when the attribute map is nonempty. -/
def Mark.toJSON (m : Mark) : AVal :=
  if m.attrs.isEmpty then .obj (AFields.ofList [("type", .str m.typeName)])
  else .obj (AFields.ofList
    [("type", .str m.typeName), ("attrs", .obj (AFields.ofList m.attrs))])

mutual
/-- ProseMirror document nodes: text runs carrying marks, and typed nodes
with attributes, marks and children. -/
inductive PNode where
  | text (s : String) (marks : List Mark)
  | node (name : String) (attrs : List (String × AVal)) (marks : List Mark)
      (content : PList)
deriving DecidableEq
inductive PList where
  | nil
  | cons (h : PNode) (t : PList)
deriving DecidableEq
end

def PList.toList : PList → List PNode
  | .nil => []
  | .cons h t => h :: t.toList

def PList.ofList : List PNode → PList
  | [] => .nil
  | h :: t => .cons h (PList.ofList t)

def PNode.isText : PNode → Bool
  | .text _ _ => true
  | .node _ _ _ _ => false

/-- Node type name; ProseMirror text nodes have the type name text. -/
def PNode.typeName : PNode → String
  | .text _ _ => "text"
  | .node n _ _ _ => n

def PNode.attrsList : PNode → List (String × AVal)
  | .text _ _ => []
  | .node _ a _ _ => a

def PNode.marksList : PNode → List Mark
  | .text _ ms => ms
  | .node _ _ ms _ => ms

def PNode.contentList : PNode → List PNode
  | .text _ _ => []
  | .node _ _ _ c => c.toList

/-- Text of a node when it is a text node (undefined on elements). -/
def PNode.textValue : PNode → Option String
  | .text s _ => some s
  | .node _ _ _ _ => none

/-- Span of a Yjs text run: an inserted string with its format attribute
map (the delta representation of Y.XmlText content). -/
structure Span where
  insert : String
  attributes : List (String × AVal)
deriving DecidableEq

mutual
/-- Yjs shared nodes.  An elem models both Y.XmlElement (isElem true) and
Y.XmlFragment (isElem false, used for the root); a text models Y.XmlText.
Every node carries its item identity, creating client and tombstone
flag. -/
inductive YNode where
  | elem (isElem : Bool) (id client : Nat) (deleted : Bool)
      (nodeName : String) (attrs : List (String × AVal)) (children : YList)
  | text (id client : Nat) (deleted : Bool) (spans : List Span)
deriving DecidableEq
inductive YList where
  | nil
  | cons (h : YNode) (t : YList)
deriving DecidableEq
end

def YList.toList : YList → List YNode
  | .nil => []
  | .cons h t => h :: t.toList

def YList.ofList : List YNode → YList
  | [] => .nil
  | h :: t => .cons h (YList.ofList t)

def YNode.idOf : YNode → Nat
  | .elem _ i _ _ _ _ _ => i
  | .text i _ _ _ => i

def YNode.clientOf : YNode → Nat
  | .elem _ _ c _ _ _ _ => c
  | .text _ c _ _ => c

def YNode.deletedOf : YNode → Bool
  | .elem _ _ _ d _ _ _ => d
  | .text _ _ d _ => d

def YNode.isXmlText : YNode → Bool
  | .text _ _ _ _ => true
  | _ => false

/-- Whether the node is a Y.XmlElement instance. -/
def YNode.isXmlElement : YNode → Bool
  | .elem isEl _ _ _ _ _ _ => isEl
  | _ => false

def YNode.attrsOf : YNode → List (String × AVal)
  | .elem _ _ _ _ _ a _ => a
  | .text _ _ _ _ => []

def YNode.childrenOf : YNode → List YNode
  | .elem _ _ _ _ _ _ c => c.toList
  | .text _ _ _ _ => []

def YNode.spansOf : YNode → List Span
  | .text _ _ _ sp => sp
  | _ => []

def YNode.setDeleted : YNode → YNode
  | .elem e i c _ n a ch => .elem e i c true n a ch
  | .text i c _ sp => .text i c true sp

/-- The toArray view of a Yjs child list: tombstoned items are skipped. -/
def visibleList (l : List YNode) : List YNode :=
  l.filter (fun c => !c.deletedOf)

/-- Value stored in the mapping table: a single ProseMirror node for a
shared element, or the ordered list of text nodes for a shared text
run. -/
inductive MapVal where
  | single (n : PNode)
  | texts (ns : List PNode)
deriving DecidableEq

/-- Binding metadata: the identity mapping table (keyed by the shared-node
identity), the overlapping-mark cache keyed by mark type name (a
ProseMirror schema has one mark type object per name), and the allocator
for identities of freshly created shared types. -/
structure Meta where
  mapping : List (Nat × MapVal)
  isOMark : List (String × Bool)
  gen : Nat
deriving DecidableEq

def mappingGet (m : Meta) (k : Nat) : Option MapVal :=
  (m.mapping.find? (fun kv => kv.1 == k)).map Prod.snd

def mappingSet (m : Meta) (k : Nat) (v : MapVal) : Meta :=
  { m with mapping :=
      if m.mapping.any (fun kv => kv.1 == k) then
        m.mapping.map (fun kv => if kv.1 == k then (k, v) else kv)
      else m.mapping ++ [(k, v)] }

def mappingDel (m : Meta) (k : Nat) : Meta :=
  { m with mapping := m.mapping.filter (fun kv => kv.1 != k) }

/-- External collaborators of the synchronizer: the document clientID, the
hash function of utils.js (hashOfJSON, applied to mark.toJSON()), and the
ProseMirror schema, given by its content validity check used by
schema.node and by the mark-type table used by schema.mark (the value is
whether that mark type excludes itself). -/
structure Ctx where
  clientID : Nat
  hashOfJSON : AVal → String
  schemaValid : String → List PNode → Bool
  schemaMark : String → Option Bool

/-- Reserved key marker for node-level marks encoded as attributes
(MarkPrefix in the source). -/
def markPrefixStr : String := "_mark_"

/-- Character class of the overlap-disambiguation hash suffix in
hashedMarkNameRegex, i.e. the class a-z A-Z 0-9 plus slash equals. -/
def isHashClassChar (c : Char) : Bool :=
  c.isAlpha || c.isDigit || c == '+' || c == '/' || c == '='

/-- Whether a character is matched by the dot of a JS regex without the s
flag: every character except a line terminator. -/
def isRegexDotChar (c : Char) : Bool :=
  !(c == '\n' || c == '\r' || c == ' ' || c == ' ')

/-- Whether the last ten characters of the name are two dashes followed by
eight hash-class characters, i.e. whether the anchored suffix group of
hashedMarkNameRegex can match at the end of the string. -/
def hashSuffixMatches (cs : List Char) : Bool :=
  decide (10 ≤ cs.length) &&
    (cs.drop (cs.length - 10)).take 2 == ['-', '-'] &&
    (cs.drop (cs.length - 8)).all isHashClassChar

/-- Longest suffix consisting only of dot-matchable characters: the exec
scan of the unanchored regex places the start of the match right after the
last line terminator occurring before the suffix. -/
def lastDotRun (cs : List Char) : List Char :=
  cs.foldl (fun acc c => if isRegexDotChar c then acc ++ [c] else []) []

/-- yattr2markname of the source: the result of exec of the regex matching
a greedy dot-star group followed by two dashes and eight hash-class
characters anchored at the end, taking the first capture group and falling
back to the whole name when the regex does not match. -/
def yattr2markname (attrName : String) : String :=
  let cs := attrName.toList
  if hashSuffixMatches cs then String.mk (lastDotRun (cs.take (cs.length - 10)))
  else attrName

/-- Model of key.replace(MarkPrefix, empty string) under the startsWith
guard: the first occurrence of the reserved marker is the six-character
span at position zero. -/
def stripMarkKey (k : String) : String := String.mk (k.toList.drop 6)

/-- Accumulating loop of nodeMarksToAttributes. -/
def nodeMarksAttrsGo : List Mark → List (String × AVal) → List (String × AVal)
  | [], acc => acc
  | m :: rest, acc =>
    if m.typeName != "ychange" then
      nodeMarksAttrsGo rest (objSet acc (markPrefixStr ++ m.typeName) m.toJSON)
    else nodeMarksAttrsGo rest acc

/-- nodeMarksToAttributes of the source: node-level marks become shared
attributes under the reserved marker key, skipping ychange marks. -/
def nodeMarksToAttributes (marks : List Mark) : List (String × AVal) :=
  nodeMarksAttrsGo marks []

/-- Model of map.setIfUndefined on the overlapping-mark cache: return the
cached classification for this mark type, computing and storing the value
of not mark.type.excludes(mark.type) on a miss. -/
def isOMarkLookup (meta : Meta) (m : Mark) : Bool × Meta :=
  match (meta.isOMark.find? (fun kv => kv.1 == m.typeName)).map Prod.snd with
  | some b => (b, meta)
  | none =>
    let b := !m.excludesSelf
    (b, { meta with isOMark := meta.isOMark ++ [(m.typeName, b)] })

/-- Accumulating loop of marksToAttributes. -/
def marksToAttrsGo (ctx : Ctx) : List Mark → List (String × AVal) → Meta →
    List (String × AVal) × Meta
  | [], pattrs, meta => (pattrs, meta)
  | m :: rest, pattrs, meta =>
    if m.typeName != "ychange" then
      let ov := isOMarkLookup meta m
      let key := if ov.1 then m.typeName ++ "--" ++ ctx.hashOfJSON m.toJSON
                 else m.typeName
      marksToAttrsGo ctx rest (objSet pattrs key (.obj (AFields.ofList m.attrs)))
        ov.2
    else marksToAttrsGo ctx rest pattrs meta

/-- marksToAttributes of the source: text-level marks become text format
attributes whose value is the mark attribute object; an overlapping mark
type gets a key disambiguated by the hash of mark.toJSON. -/
def marksToAttributes (ctx : Ctx) (marks : List Mark) (meta : Meta) :
    List (String × AVal) × Meta :=
  marksToAttrsGo ctx marks [] meta

/-- Key loop of equalAttrs; deep is the recursive equalAttrs call at the
remaining fuel. -/
def eqKeysGo
    (deep : List (String × AVal) → Option (List (String × AVal)) → Option Bool)
    (pattrs : List (String × AVal)) (yattrs : Option (List (String × AVal))) :
    List String → Option Bool
  | [] => some true
  | key :: rest =>
    let step :=
      let l := objGet pattrs key
      let r := yattrs.bind (fun ys => objGet ys key)
      if key == "ychange" then some true
      else if jsStrictEq l r then some true
      else match l, r with
        | some (.obj lf), some (.obj rf) => deep lf.toList (some rf.toList)
        | _, _ => some false
    match step with
    | none => none
    | some false => some false
    | some true => eqKeysGo deep pattrs yattrs rest

/-- equalAttrs of the source: compares a ProseMirror attribute object with
a shared attribute object, ignoring null values, the ychange key and (on
the shared side) mark-encoded keys; nested objects compare recursively
when strict equality fails.  The fuel bounds the object nesting depth and
exhaustion yields none. -/
def equalAttrs : Nat → List (String × AVal) → Option (List (String × AVal)) →
    Option Bool
  | 0, _, _ => none
  | fuel + 1, pattrs, yattrs =>
    let keys := (pattrs.filter (fun kv => kv.2 != AVal.null)).map Prod.fst
    let rcount := match yattrs with
      | none => 0
      | some ys => (ys.filter (fun kv =>
          kv.2 != AVal.null && !(kv.1.startsWith markPrefixStr))).length
    if keys.length != rcount then some false
    else eqKeysGo (equalAttrs fuel) pattrs yattrs keys

/-- equalMarks of the source: the mark-encoded attributes of a shared
element match the marks of a ProseMirror node; values are compared with
lib0 equalityDeep, which is deep structural equality. -/
def equalMarks (pmarks : List Mark) (yattrs : List (String × AVal)) : Bool :=
  let keys := (yattrs.filter (fun kv => kv.1.startsWith markPrefixStr)).map Prod.fst
  if keys.length != pmarks.length then false
  else
    let pMarkAttr := nodeMarksToAttributes pmarks
    keys.all (fun key =>
      key == "ychange" || objGet pMarkAttr key == objGet yattrs key)

/-- Packing step of the toDelta view: adjacent spans with equal attribute
maps are reported as one delta segment. -/
def mergeSpansGo (cur : Span) : List Span → List Span
  | [] => [cur]
  | s :: rest =>
    if cur.attributes == s.attributes then
      mergeSpansGo (Span.mk (cur.insert ++ s.insert) cur.attributes) rest
    else cur :: mergeSpansGo s rest

/-- toDelta view of a text run content. -/
def toDeltaSpans : List Span → List Span
  | [] => []
  | s :: rest => mergeSpansGo s rest

/-- Attribute loop of one delta segment in equalYTextPText: every format
attribute must decode (through yattr2markname) to a mark of the text node
with equal attributes. -/
def eqTextAttrsGo (fuel : Nat) (pmarks : List Mark) :
    List (String × AVal) → Option Bool
  | [] => some true
  | kv :: rest =>
    let markname := yattr2markname kv.1
    let found := pmarks.find? (fun mark => mark.typeName == markname)
    match equalAttrs fuel (avalFields kv.2) (found.map Mark.attrs) with
    | none => none
    | some false => some false
    | some true => eqTextAttrsGo fuel pmarks rest

/-- Segment loop of equalYTextPText over the zipped delta segments and
editable text nodes. -/
def eqTextSegsGo (fuel : Nat) : List (Span × PNode) → Option Bool
  | [] => some true
  | dp :: rest =>
    if some dp.1.insert != dp.2.textValue then some false
    else if dp.1.attributes.length != dp.2.marksList.length then some false
    else match eqTextAttrsGo fuel dp.2.marksList dp.1.attributes with
      | none => none
      | some false => some false
      | some true => eqTextSegsGo fuel rest

/-- equalYTextPText of the source: the delta segments of the shared text
run align one to one with the editable text nodes, with the same inserted
string, as many format attributes as marks, and every format attribute
decoding to a mark with equal attributes. -/
def equalYTextPText (fuel : Nat) (spans : List Span) (ptexts : List PNode) :
    Option Bool :=
  let delta := toDeltaSpans spans
  if delta.length != ptexts.length then some false
  else eqTextSegsGo fuel (delta.zip ptexts)

/-- Slot of normalized ProseMirror content: consecutive text children are
collapsed into one slot holding the list of text nodes. -/
inductive PSlot where
  | one (n : PNode)
  | texts (ts : List PNode)
deriving DecidableEq

/-- Grouping loop of normalizePNodeContent; acc is the current run of text
nodes in reverse order. -/
def normGo (acc : List PNode) : List PNode → List PSlot
  | [] => if acc.isEmpty then [] else [.texts acc.reverse]
  | n :: rest =>
    if n.isText then normGo (n :: acc) rest
    else (if acc.isEmpty then [] else [.texts acc.reverse]) ++
      (.one n :: normGo [] rest)

/-- normalizePNodeContent of the source. -/
def normalizePNodeContent (pnode : PNode) : List PSlot :=
  normGo [] pnode.contentList

/-- Shape of a normalized slot as it is stored in the mapping table. -/
def slotToMapVal : PSlot → MapVal
  | .one n => .single n
  | .texts ts => .texts ts

/-- matchNodeName of the source: pNode is not an array and the element
node name equals the ProseMirror type name (a fragment has no node name
and never matches). -/
def matchNodeName (y : YNode) (slot : PSlot) : Bool :=
  match y, slot with
  | .elem true _ _ _ nodeName _ _, .one p => nodeName == p.typeName
  | _, _ => false

/-- Child loop of equalYTypePNode: every zipped pair of shared child and
normalized slot must satisfy the oracle (eq is the recursive call at the
remaining fuel). -/
def eqChildrenGo (eq : YNode → PSlot → Option Bool) :
    List (YNode × PSlot) → Option Bool
  | [] => some true
  | yp :: rest =>
    match eq yp.1 yp.2 with
    | none => none
    | some false => some false
    | some true => eqChildrenGo eq rest

/-- equalYTypePNode of the source: the structural equality oracle between
a shared node and a normalized editable slot. -/
def equalYTypePNode : Nat → YNode → PSlot → Option Bool
  | 0, _, _ => none
  | fuel + 1, ytype, slot =>
    if ytype.isXmlElement && matchNodeName ytype slot then
      match slot with
      | .one pnode =>
        let normalized := normalizePNodeContent pnode
        let vis := visibleList ytype.childrenOf
        if vis.length != normalized.length then some false
        else
          match equalAttrs fuel pnode.attrsList (some ytype.attrsOf) with
          | none => none
          | some false => some false
          | some true =>
            if !(equalMarks pnode.marksList ytype.attrsOf) then some false
            else eqChildrenGo (equalYTypePNode fuel) (vis.zip normalized)
      | .texts _ => some false
    else
      match ytype, slot with
      | .text _ _ _ spans, .texts ts => equalYTextPText fuel spans ts
      | _, _ => some false

/-- mappedIdentity of the source: the mapping value and the normalized
content slot denote the same editable objects (reference equality,
elementwise for text-node lists); reference equality implies the
structural equality used here. -/
def mappedIdentity (mapped : Option MapVal) (pcontent : PSlot) : Bool :=
  match mapped, pcontent with
  | some (.single n), .one p => n == p
  | some (.texts ns), .texts ps => ns == ps
  | _, _ => false

/-- One directional scan of the child alignment: advance while the pair is
identity-mapped (recording the found flag) or structurally equal, stopping
at the first mismatch.  Returns the number of advanced positions and
whether any advance was an identity match. -/
def cefScan (mi : YNode → PSlot → Bool) (eq : YNode → PSlot → Option Bool) :
    List (YNode × PSlot) → Option (Nat × Bool)
  | [] => some (0, false)
  | (y, p) :: rest =>
    if mi y p then (cefScan mi eq rest).map (fun r => (r.1 + 1, true))
    else match eq y p with
      | none => none
      | some true => (cefScan mi eq rest).map (fun r => (r.1 + 1, r.2))
      | some false => some (0, false)

/-- computeChildEqualityFactor of the source: matched prefix plus matched
suffix of the two children sequences, bounded so that their sum does not
exceed the shorter length, together with the found-mapped-child flag. -/
def computeChildEqualityFactor (fuel : Nat) (ytype : YNode) (pnode : PNode)
    (meta : Meta) : Option (Nat × Bool) :=
  let yChildren := visibleList ytype.childrenOf
  let pChildren := normalizePNodeContent pnode
  let minCnt := min yChildren.length pChildren.length
  let mi := fun (y : YNode) (p : PSlot) => mappedIdentity (mappingGet meta y.idOf) p
  match cefScan mi (equalYTypePNode fuel) (yChildren.zip pChildren) with
  | none => none
  | some lres =>
    let rpairs := ((yChildren.reverse).zip (pChildren.reverse)).take
      (minCnt - lres.1)
    match cefScan mi (equalYTypePNode fuel) rpairs with
    | none => none
    | some rres => some (lres.1 + rres.1, lres.2 || rres.2)

/-- Item metadata relevant to snapshot visibility. -/
structure YItemInfo where
  client : Nat
  clock : Nat
  deleted : Bool
deriving DecidableEq

/-- Range of a delete-set: len consecutive deleted ids of one client. -/
structure DSRange where
  client : Nat
  clock : Nat
  len : Nat
deriving DecidableEq

/-- Snapshot: a version vector (client to first-unseen clock) and a
delete-set. -/
structure YSnapshot where
  sv : List (Nat × Nat)
  ds : List DSRange

def svGet (sv : List (Nat × Nat)) (c : Nat) : Option Nat :=
  (sv.find? (fun kv => kv.1 == c)).map Prod.snd

/-- Y.isDeleted on a delete-set: the id is covered by one of the ranges of
its client. -/
def dsIsDeleted (ds : List DSRange) (client clock : Nat) : Bool :=
  ds.any (fun r => r.client == client && r.clock ≤ clock && clock < r.clock + r.len)

/-- isVisible of the source: without a snapshot an item is visible iff not
tombstoned; with a snapshot, iff its creation is inside the version vector
and its id is not in the delete-set. -/
def isVisible (item : YItemInfo) (snapshot : Option YSnapshot) : Bool :=
  match snapshot with
  | none => !item.deleted
  | some s =>
    match svGet s.sv item.client with
    | none => false
    | some clk => decide (item.clock < clk) && !dsIsDeleted s.ds item.client item.clock

/-- Enumeration filter of Y.typeListToArraySnapshot as invoked by
_renderSnapshot: children are materialized against the mixed snapshot made
of the previous delete-set and the current state vector, so an item is
listed iff visible under that mixed snapshot. -/
def listedBySnapshotMix (item : YItemInfo) (snapshot prevSnapshot : YSnapshot) :
    Bool :=
  isVisible item (some (YSnapshot.mk snapshot.sv prevSnapshot.ds))

/-- Inclusion condition of _renderSnapshot for a top-level shared node: the
node is listed by the mixed-snapshot enumeration and then kept when it is
not tombstoned or is visible under either snapshot; otherwise null is
produced and filtered out. -/
def renderIncluded (item : YItemInfo) (snapshot prevSnapshot : YSnapshot) :
    Bool :=
  listedBySnapshotMix item snapshot prevSnapshot &&
    (!item.deleted || isVisible item (some snapshot) ||
      isVisible item (some prevSnapshot))

/-- Stored relative selection (the result of getRelativeSelection): the
selection kind tag and the two endpoints as relative positions, null when
the endpoint could not be encoded.  Relative positions are opaque tokens
here. -/
structure RelSel where
  relType : String
  anchor : Option Nat
  head : Option Nat

/-- Selection-setting call performed by restoreRelativeSelection.  In the
node case the source passes the resolved anchor to NodeSelection.create
without a null check, hence the optional payload. -/
inductive SelAction where
  | allSel
  | nodeSel (anchor : Option Nat)
  | textSel (anchor head : Nat)
deriving DecidableEq

/-- restoreRelativeSelection of the source; resolve stands for
relativePositionToAbsolutePosition on the binding state (lib.js, outside
this file).  The result is the selection-setting call performed on the
transaction, none when no selection is set. -/
def restoreRelativeSelection (resolve : Nat → Option Nat)
    (relSel : Option RelSel) : Option SelAction :=
  match relSel with
  | none => none
  | some rs =>
    match rs.anchor, rs.head with
    | some anc, some hd =>
      if rs.relType == "all" then some .allSel
      else if rs.relType == "node" then some (.nodeSel (resolve anc))
      else
        match resolve anc, resolve hd with
        | some a, some h => some (.textSel a h)
        | _, _ => none
    | _, _ => none

/-- Extract the ProseMirror node of an element slot. -/
def slotNode : PSlot → Option PNode
  | .one n => some n
  | .texts _ => none

/-- Delta loop of createTypeFromTextNodes: one insert per text node with
its encoded marks. -/
def textDeltaGo (ctx : Ctx) : List PNode → Meta → List Span × Meta
  | [], meta => ([], meta)
  | node :: rest, meta =>
    let ma := marksToAttributes ctx node.marksList meta
    let r := textDeltaGo ctx rest ma.2
    (Span.mk (node.textValue.getD "") ma.1 :: r.1, r.2)

/-- createTypeFromTextNodes of the source: a fresh Y.XmlText whose content
is the delta made of one insert per text node with its encoded marks; the
mapping registers the list of text nodes under the new type. -/
def createTypeFromTextNodes (ctx : Ctx) (nodes : List PNode) (meta : Meta) :
    YNode × Meta :=
  let id := meta.gen
  let meta0 := { meta with gen := id + 1 }
  let folded := textDeltaGo ctx nodes meta0
  (YNode.text id ctx.clientID false folded.1,
   mappingSet folded.2 id (.texts nodes))

/-- Slot loop shared by createTypeFromElementNode and the insertion phase
of updateYFragment: build one fresh shared type per normalized slot,
threading the metadata; buildSlot is createTypeFromTextOrElementNode at
the appropriate fuel. -/
def buildTypesGo (buildSlot : PSlot → Meta → Option (YNode × Meta)) :
    List PSlot → Meta → Option (List YNode × Meta)
  | [], meta => some ([], meta)
  | slot :: rest, meta =>
    match buildSlot slot meta with
    | none => none
    | some r =>
      (buildTypesGo buildSlot rest r.2).map (fun q => (r.1 :: q.1, q.2))

/-- createTypeFromElementNode of the source: a fresh Y.XmlElement with the
non-null non-ychange ProseMirror attributes, the mark-encoded node marks,
and one shared child per normalized content slot; the mapping registers
the ProseMirror node under the new type. -/
def createTypeFromElementNode (ctx : Ctx) : Nat → PNode → Meta →
    Option (YNode × Meta)
  | 0, _, _ => none
  | fuel + 1, node, meta =>
    let id := meta.gen
    let meta0 := { meta with gen := id + 1 }
    let nodeMarksAttr := nodeMarksToAttributes node.marksList
    let a1 := node.attrsList.foldl (fun acc kv =>
      if kv.2 != AVal.null && kv.1 != "ychange" then objSet acc kv.1 kv.2
      else acc) []
    let a2 := nodeMarksAttr.foldl (fun acc kv => objSet acc kv.1 kv.2) a1
    (buildTypesGo (fun slot m =>
      match slot with
      | .texts ts => some (createTypeFromTextNodes ctx ts m)
      | .one n => createTypeFromElementNode ctx fuel n m)
      (normalizePNodeContent node) meta0).map
      (fun csm =>
        (YNode.elem true id ctx.clientID false node.typeName a2
          (YList.ofList csm.1), mappingSet csm.2 id (.single node)))

/-- createTypeFromTextOrElementNode of the source. -/
def createTypeFromTextOrElementNode (ctx : Ctx) (fuel : Nat) (slot : PSlot)
    (meta : Meta) : Option (YNode × Meta) :=
  match slot with
  | .texts ts => some (createTypeFromTextNodes ctx ts meta)
  | .one n => createTypeFromElementNode ctx fuel n meta

/-- attributesToMarks of the source: decode text format attributes back to
marks, normalizing each attribute name through yattr2markname; schema.mark
throws on a mark name unknown to the schema, which yields none here. -/
def attributesToMarks (ctx : Ctx) : List (String × AVal) → Option (List Mark)
  | [] => some []
  | kv :: rest =>
    let markName := yattr2markname kv.1
    match ctx.schemaMark markName with
    | none => none
    | some exc =>
      (attributesToMarks ctx rest).map
        (fun ms => Mark.mk markName exc (avalFields kv.2) :: ms)

/-- Segment loop of createTextNodesFromYText. -/
def textNodesGo (ctx : Ctx) : List Span → Option (List PNode)
  | [] => some []
  | d :: rest =>
    match attributesToMarks ctx d.attributes with
    | none => none
    | some marks =>
      (textNodesGo ctx rest).map (fun ns => PNode.text d.insert marks :: ns)

/-- createTextNodesFromYText of the source, without snapshots: one
ProseMirror text node per delta segment of the run.  A schema failure
while decoding marks is caught and reported as none, upon which the caller
deletes the text item. -/
def createTextNodesFromYText (ctx : Ctx) (spans : List Span) :
    Option (List PNode) :=
  textNodesGo ctx (toDeltaSpans spans)

/-- Child-building loop of createNodeFromYElement.  The pair list is the
full child item list, each item tagged with a visit flag computed from
toArray before the loop starts (an item tombstoned during the loop is
still visited and then contributes nothing, because its content is gone).
For a visited text item, the companion merge rule runs first: when the
immediate right sibling item is a text run that is not deleted and was
created by this client, its content is appended to the leader and the
follower item is deleted in place, before the editable text nodes of the
leader are created.  buildElem is createNodeIfNotExists of the source: a
mapping hit returns the cached editable node, a miss builds the element
recursively (mapping entries for element keys are always single nodes in
every flow of this development; the texts case is unreachable and
contributes nothing).  The budget is the length of the pair list. -/
def buildChildrenGo (ctx : Ctx)
    (buildElem : YNode → Meta → Option (YNode × Option PNode × Meta)) :
    Nat → List (Bool × YNode) → Meta → Option (List YNode × List PNode × Meta)
  | _, [], meta => some ([], [], meta)
  | 0, _ :: _, _ => none
  | budget + 1, (visit, c) :: rest, meta =>
    if !visit then
      (buildChildrenGo ctx buildElem budget rest meta).map
        (fun r => (c :: r.1, r.2.1, r.2.2))
    else
      match c with
      | .elem _ _ _ _ _ _ _ =>
        match buildElem c meta with
        | none => none
        | some (c1, pn, meta1) =>
          (buildChildrenGo ctx buildElem budget rest meta1).map
            (fun r => (c1 :: r.1,
              (match pn with | some n => n :: r.2.1 | none => r.2.1), r.2.2))
      | .text tid tclient tdel tspans =>
        let stepped :=
          match rest with
          | (nvisit, YNode.text nid nclient false nspans) :: rest2 =>
            if nclient == ctx.clientID then
              (YNode.text tid tclient tdel (tspans ++ toDeltaSpans nspans),
               (nvisit, YNode.text nid nclient true []) :: rest2)
            else (c, rest)
          | _ => (c, rest)
        match createTextNodesFromYText ctx stepped.1.spansOf with
        | some ns =>
          (buildChildrenGo ctx buildElem budget stepped.2 meta).map
            (fun r => (stepped.1 :: r.1, ns ++ r.2.1, r.2.2))
        | none =>
          match stepped.1 with
          | YNode.text mid mclient _ _ =>
            (buildChildrenGo ctx buildElem budget stepped.2 meta).map
              (fun r => (YNode.text mid mclient true [] :: r.1, r.2.1, r.2.2))
          | _ => none

/-- createNodeFromYElement of the source, without snapshots.  The children
are built first (with the adjacent-text merge rule), then the shared
attributes are split into plain attributes and mark-encoded node marks and
the editable node is constructed through the schema.  A construction
failure (an unresolvable mark type or a schema content violation, i.e. the
children violate the structural rules) is caught inside the function: the
offending shared node is deleted in its own transaction, its mapping entry
is dropped and none is returned for the slot, so no exception reaches the
caller.  The first component of the result is the shared node with all
mutations (merges, self-healing deletions) recorded. -/
def createNodeFromYElement (ctx : Ctx) : Nat → YNode → Meta →
    Option (YNode × Option PNode × Meta)
  | 0, _, _ => none
  | fuel + 1, el, meta =>
    match el with
    | .text _ _ _ _ => none
    | .elem isEl id client del nodeName yattrs childrenL =>
      let pairs := childrenL.toList.map (fun c => (!c.deletedOf, c))
      match buildChildrenGo ctx
          (fun c m =>
            match mappingGet m c.idOf with
            | some (.single n) => some (c, some n, m)
            | some (.texts _) => some (c, none, m)
            | none => createNodeFromYElement ctx fuel c m)
          pairs.length pairs meta with
      | none => none
      | some (cs1, children1, meta1) =>
        let nodeAttrs := yattrs.foldl (fun acc kv =>
          if kv.1.startsWith markPrefixStr then acc
          else objSet acc kv.1 kv.2) []
        let nodeMarks := yattrs.foldl (fun acc kv =>
          if kv.1.startsWith markPrefixStr then
            match acc with
            | none => none
            | some ms =>
              if isObjectA kv.2 then
                let markName := stripMarkKey kv.1
                match ctx.schemaMark markName with
                | none => none
                | some exc =>
                  some (ms ++ [Mark.mk markName exc
                    (avalFields ((objGet (avalFields kv.2) "attrs").getD AVal.null))])
              else some ms
          else acc) (some [])
        match nodeMarks with
        | some ms =>
          if ctx.schemaValid nodeName children1 then
            let node := PNode.node nodeName nodeAttrs ms (PList.ofList children1)
            some (YNode.elem isEl id client del nodeName yattrs (YList.ofList cs1),
              some node, mappingSet meta1 id (.single node))
          else
            some (YNode.elem isEl id client true nodeName yattrs (YList.ofList cs1),
              none, mappingDel meta1 id)
        | none =>
          some (YNode.elem isEl id client true nodeName yattrs (YList.ofList cs1),
            none, mappingDel meta1 id)

/-- Content loop of updateYText: each target text node becomes a span of
its text, formatted by the cleared old formats overridden by the encoded
marks, dropping null formats. -/
def updateYTextGo (ctx : Ctx) (nAttrs : List (String × AVal)) :
    List PNode → Meta → List Span × Meta
  | [], meta => ([], meta)
  | p :: rest, meta =>
    let ma := marksToAttributes ctx p.marksList meta
    let r := updateYTextGo ctx nAttrs rest ma.2
    (Span.mk (p.textValue.getD "")
      ((objMergeJS nAttrs ma.1).filter (fun kv => kv.2 != AVal.null)) :: r.1,
     r.2)

/-- updateYText of the source, as the net effect of its three steps on the
run content: the mapping entry is renewed; the plain text becomes the
concatenation of the target text nodes (through the minimal simpleDiff
delete and insert, which touches only the differing middle); and the
attribute-only delta pass reformats each retained target range with the
old format keys cleared to null and overridden by the encoded marks of
that text node, null formats being removed.  The identity of the run is
untouched. -/
def updateYText (ctx : Ctx) (ytextId : Nat) (spans : List Span)
    (ptexts : List PNode) (meta : Meta) : List Span × Meta :=
  let meta1 := mappingSet meta ytextId (.texts ptexts)
  let nAttrs := spans.foldl (fun acc s =>
    s.attributes.foldl (fun a kv => objSet a kv.1 AVal.null) acc) []
  updateYTextGo ctx nAttrs ptexts meta1

/-- Position in the full child list of the item at a given visible index. -/
def visibleIdx : List YNode → Nat → Option Nat
  | [], _ => none
  | c :: rest, k =>
    if c.deletedOf then (visibleIdx rest k).map (· + 1)
    else match k with
      | 0 => some 0
      | k + 1 => (visibleIdx rest k).map (· + 1)

/-- Write through the k-th visible position of a Yjs child list. -/
def setVisibleAt (l : List YNode) (k : Nat) (x : YNode) : List YNode :=
  match visibleIdx l k with
  | some i => l.set i x
  | none => l

/-- Replacement at a visible position, as performed by delete(k, 1)
followed by insert(k, newType): the old item is tombstoned and the new
item placed next to it. -/
def replaceVisAt (l : List YNode) (k : Nat) (x : YNode) : List YNode :=
  match visibleIdx l k with
  | some i =>
    match l.get? i with
    | some old => l.take i ++ [old.setDeleted, x] ++ l.drop (i + 1)
    | none => l
  | none => l

/-- Tombstone the k-th visible item. -/
def markVisDeleted (l : List YNode) (k : Nat) : List YNode :=
  match visibleIdx l k with
  | some i =>
    match l.get? i with
    | some old => l.set i old.setDeleted
    | none => l
  | none => l

/-- Tombstone len visible items starting at visible position k, as
delete(k, len) does. -/
def delVisRange : List YNode → Nat → Nat → List YNode
  | l, _, 0 => l
  | l, k, n + 1 => delVisRange (markVisDeleted l k) k n

/-- Slice of the visible items, as yDomFragment.slice(k, k + len). -/
def sliceVis (l : List YNode) (k len : Nat) : List YNode :=
  ((visibleList l).drop k).take len

/-- Insert items before the k-th visible position (at the end when k is
the visible length). -/
def insertVisAt (l : List YNode) (k : Nat) (xs : List YNode) : List YNode :=
  match visibleIdx l k with
  | some i => l.take i ++ xs ++ l.drop i
  | none => l ++ xs

/-- Matching-prefix scan of updateYFragment (also used from the other end
for the suffix): an identity-mapped pair advances, a structurally equal
pair advances after renewing its mapping entry, and the first mismatch
stops the scan.  Returns the match count and the updated metadata. -/
def updScan (eq : YNode → PSlot → Option Bool) :
    List (YNode × PSlot) → Meta → Option (Nat × Meta)
  | [], meta => some (0, meta)
  | (y, p) :: rest, meta =>
    if mappedIdentity (mappingGet meta y.idOf) p then
      (updScan eq rest meta).map (fun r => (r.1 + 1, r.2))
    else match eq y p with
      | none => none
      | some true =>
        (updScan eq rest (mappingSet meta y.idOf (slotToMapVal p))).map
          (fun r => (r.1 + 1, r.2))
      | some false => some (0, meta)

/-- Reconciliation loop of updateYFragment over the dirty middle.  stale
is the toArray snapshot taken before the loop (the source reads child
positions from this array), live is the current full child list of the
fragment (the mutation target; replacements keep the visible count
constant, so visible indices of the two stay aligned on unprocessed
positions).  recur, cef, eqTxt and mkType are the recursive synchronizer,
the equality-factor computation, the text oracle and the forward type
builder at the fuel of the enclosing call.  An error from a recursive call
aborts the loop at once, keeping the mutations made so far and the
pointers at their pre-increment values.  The budget bounds the iteration
count; the enclosing call passes the shared child count, which suffices
because every iteration advances left or right. -/
def updateLoop (ctx : Ctx)
    (recur : YNode → PNode → Meta → Option (YNode × Meta × Option String))
    (cef : YNode → PNode → Meta → Option (Nat × Bool))
    (eqTxt : List Span → List PNode → Option Bool)
    (mkType : PSlot → Meta → Option (YNode × Meta)) :
    Nat → List YNode → List YNode → List PSlot → Nat → Nat → Nat → Nat →
    Meta → Option (List YNode × Nat × Nat × Meta × Option String)
  | 0, _, live, _, yCnt, pCnt, left, right, meta =>
    if yCnt - left - right > 0 && pCnt - left - right > 0 then none
    else some (live, left, right, meta, none)
  | budget + 1, stale, live, pChildren, yCnt, pCnt, left, right, meta =>
    if !(yCnt - left - right > 0 && pCnt - left - right > 0) then
      some (live, left, right, meta, none)
    else
      match stale.get? left, pChildren.get? left,
          stale.get? (yCnt - right - 1), pChildren.get? (pCnt - right - 1) with
      | some leftY, some leftP, some rightY, some rightP =>
        match leftY, leftP with
        | YNode.text tid tclient tdel tspans, PSlot.texts ts =>
          (match eqTxt tspans ts with
           | none => none
           | some eqv =>
             if eqv then
               updateLoop ctx recur cef eqTxt mkType budget stale live
                 pChildren yCnt pCnt (left + 1) right meta
             else
               let r := updateYText ctx tid tspans ts meta
               updateLoop ctx recur cef eqTxt mkType budget stale
                 (setVisibleAt live left (YNode.text tid tclient tdel r.1))
                 pChildren yCnt pCnt (left + 1) right r.2)
        | _, _ =>
          let uL0 := leftY.isXmlElement && matchNodeName leftY leftP
          let uR0 := rightY.isXmlElement && matchNodeName rightY rightP
          let flags : Option (Bool × Bool) :=
            if uL0 && uR0 then
              match slotNode leftP, slotNode rightP with
              | some lp, some rp =>
                match cef leftY lp meta, cef rightY rp meta with
                | some eL, some eR =>
                  if eL.2 && !eR.2 then some (true, false)
                  else if !eL.2 && eR.2 then some (false, true)
                  else if eL.1 < eR.1 then some (false, true)
                  else some (true, false)
                | _, _ => none
              | _, _ => none
            else some (uL0, uR0)
          match flags with
          | none => none
          | some fl =>
            if fl.1 then
              match slotNode leftP with
              | some lp =>
                match recur leftY lp meta with
                | none => none
                | some (y1, meta1, err) =>
                  let live1 := setVisibleAt live left y1
                  match err with
                  | some e => some (live1, left, right, meta1, some e)
                  | none =>
                    updateLoop ctx recur cef eqTxt mkType budget stale live1
                      pChildren yCnt pCnt (left + 1) right meta1
              | none => none
            else if fl.2 then
              match slotNode rightP with
              | some rp =>
                match recur rightY rp meta with
                | none => none
                | some (y1, meta1, err) =>
                  let live1 := setVisibleAt live (yCnt - right - 1) y1
                  match err with
                  | some e => some (live1, left, right, meta1, some e)
                  | none =>
                    updateLoop ctx recur cef eqTxt mkType budget stale live1
                      pChildren yCnt pCnt left (right + 1) meta1
              | none => none
            else
              match (visibleList live).get? left with
              | none => none
              | some old =>
                let meta1 := mappingDel meta old.idOf
                match mkType leftP meta1 with
                | none => none
                | some r =>
                  updateLoop ctx recur cef eqTxt mkType budget stale
                    (replaceVisAt live left r.1) pChildren yCnt pCnt
                    (left + 1) right r.2
      | _, _, _, _ => none

/-- updateYFragment of the source: the forward synchronizer.  A thrown
error is the third result component (the source throws the node name
mismatch error before the mapping entry is set and before any attribute or
child mutation); the returned node and metadata are the state at the
moment of the throw.  All shared mutations of one call happen inside one
transaction in the source; the model returns the final state of the
fragment. -/
def updateYFragment (ctx : Ctx) : Nat → YNode → PNode → Meta →
    Option (YNode × Meta × Option String)
  | 0, _, _, _ => none
  | fuel + 1, y, pNode, meta =>
    match y with
    | .text _ _ _ _ => none
    | .elem isEl id client del nodeName yattrs childrenL =>
      if isEl && nodeName != pNode.typeName then
        some (y, meta, some "node name mismatch!")
      else
        let meta0 := mappingSet meta id (.single pNode)
        let yattrs1 := if isEl then
            let attrs := objMergeJS pNode.attrsList
              (nodeMarksToAttributes pNode.marksList)
            let a1 := attrs.foldl (fun acc kv =>
              if kv.2 != AVal.null then
                (if objGet yattrs kv.1 != some kv.2 && kv.1 != "ychange" then
                  objSet acc kv.1 kv.2 else acc)
              else objErase acc kv.1) yattrs
            yattrs.foldl (fun acc kv =>
              if objGet attrs kv.1 == none then objErase acc kv.1 else acc) a1
          else yattrs
        let pChildren := normalizePNodeContent pNode
        let pChildCnt := pChildren.length
        let yChildren := visibleList childrenL.toList
        let yChildCnt := yChildren.length
        let minCnt := min pChildCnt yChildCnt
        match updScan (equalYTypePNode fuel) (yChildren.zip pChildren) meta0 with
        | none => none
        | some lres =>
          let rpairs := ((yChildren.reverse).zip (pChildren.reverse)).take
            (minCnt - lres.1)
          match updScan (equalYTypePNode fuel) rpairs lres.2 with
          | none => none
          | some rres =>
            match updateLoop ctx (fun a b c => updateYFragment ctx fuel a b c)
                (fun a b c => computeChildEqualityFactor fuel a b c)
                (equalYTextPText fuel)
                (fun a b => createTypeFromTextOrElementNode ctx fuel a b)
                yChildCnt yChildren childrenL.toList pChildren yChildCnt
                pChildCnt lres.1 rres.1 rres.2 with
            | none => none
            | some (live1, left1, right1, meta3, err) =>
              match err with
              | some e =>
                some (YNode.elem isEl id client del nodeName yattrs1
                  (YList.ofList live1), meta3, some e)
              | none =>
                let yDelLen := yChildCnt - left1 - right1
                let phase2 : Option (List YNode × Meta) :=
                  if yChildCnt == 1 && pChildCnt == 0 &&
                      (match yChildren.get? 0 with
                       | some (YNode.text _ _ _ _) => true
                       | _ => false) then
                    match yChildren.get? 0 with
                    | some (YNode.text tid tc tdel _) =>
                      some (setVisibleAt live1 0 (YNode.text tid tc tdel []),
                        mappingDel meta3 tid)
                    | _ => none
                  else if yDelLen > 0 then
                    some (delVisRange live1 left1 yDelLen,
                      (sliceVis live1 left1 yDelLen).foldl
                        (fun m t => mappingDel m t.idOf) meta3)
                  else some (live1, meta3)
                match phase2 with
                | none => none
                | some lm =>
                  if left1 + right1 < pChildCnt then
                    let islots := (pChildren.drop left1).take
                      (pChildCnt - right1 - left1)
                    match buildTypesGo
                        (fun a b => createTypeFromTextOrElementNode ctx fuel a b)
                        islots lm.2 with
                    | none => none
                    | some im =>
                      some (YNode.elem isEl id client del nodeName yattrs1
                        (YList.ofList (insertVisAt lm.1 left1 im.1)), im.2, none)
                  else
                    some (YNode.elem isEl id client del nodeName yattrs1
                      (YList.ofList lm.1), lm.2, none)

/-- Node name accessor (empty for text runs, which carry no node name). -/
def YNode.nodeNameOf : YNode → String
  | .elem _ _ _ _ n _ _ => n
  | .text _ _ _ _ => ""

/-- Flattening of normalized slots back to the plain child list. -/
def flattenSlots : List PSlot → List PNode
  | [] => []
  | .one n :: rest => n :: flattenSlots rest
  | .texts ts :: rest => ts ++ flattenSlots rest

/-- Canonical attribute key of a text-level mark: an overlapping mark type
(one that does not exclude itself) is disambiguated with the hash of the
mark JSON.  This is the key marksToAttributes computes when the
overlapping-mark cache agrees with the schema. -/
def keyOfMark (ctx : Ctx) (m : Mark) : String :=
  if m.excludesSelf then m.typeName
  else m.typeName ++ "--" ++ ctx.hashOfJSON m.toJSON

/-- Canonical encoded attribute map of a list of text-level marks. -/
def canonTextAttrs (ctx : Ctx) (ms : List Mark) : List (String × AVal) :=
  ms.map (fun m => (keyOfMark ctx m, AVal.obj (AFields.ofList m.attrs)))

/-- Consistency of the overlapping-mark cache with the schema: every
cached classification agrees with the excludes-itself flag the schema
reports for that mark type. -/
def CacheOk (ctx : Ctx) (meta : Meta) : Prop :=
  ∀ p ∈ meta.isOMark, ∃ e, ctx.schemaMark p.1 = some e ∧ p.2 = !e

/-- Overlap-rule conformance of the marks of one text node: no reserved
ychange mark, pairwise distinct mark type names (two instances of one mark
type on one node is exactly an overlap violation), mark types drawn from
the schema, every encoded attribute key decoding back to the mark name,
and mark attribute objects carrying no reserved-marker keys with non-null
values. -/
def TextMarksOk (ctx : Ctx) (ms : List Mark) : Prop :=
  (∀ m ∈ ms, m.typeName ≠ "ychange") ∧
  (ms.map Mark.typeName).Nodup ∧
  (∀ m ∈ ms, ctx.schemaMark m.typeName = some m.excludesSelf) ∧
  (∀ m ∈ ms, yattr2markname (keyOfMark ctx m) = m.typeName) ∧
  (∀ m ∈ ms, ∀ kv ∈ m.attrs, kv.1.startsWith markPrefixStr = true →
    kv.2 = AVal.null)

/-- Cleanliness of an element attribute map: no null values, no reserved
keys, distinct keys. -/
def NodeAttrsOk (attrs : List (String × AVal)) : Prop :=
  (∀ kv ∈ attrs, kv.2 ≠ AVal.null ∧ kv.1 ≠ "ychange" ∧
    kv.1.startsWith markPrefixStr = false) ∧
  (attrs.map Prod.fst).Nodup

/-- Conformance of node-level marks: no ychange mark, types drawn from the
schema, pairwise distinct type names, and the reserved key encoding each
mark recognized as reserved by the string library. -/
def NodeMarksOk (ctx : Ctx) (ms : List Mark) : Prop :=
  (∀ m ∈ ms, m.typeName ≠ "ychange" ∧
    ctx.schemaMark m.typeName = some m.excludesSelf ∧
    (markPrefixStr ++ m.typeName).startsWith markPrefixStr = true) ∧
  (ms.map Mark.typeName).Nodup

/-- Set inequality of two attribute maps: some binding of one is missing
from the other.  Distinct binding sets guarantee that neither this model
nor the CRDT engine packs two adjacent spans into one delta segment. -/
def attrMapsDiffer (a b : List (String × AVal)) : Prop :=
  ¬ ((∀ kv ∈ a, kv ∈ b) ∧ (∀ kv ∈ b, kv ∈ a))

/-- Separation of adjacent text children: two neighboring text nodes must
encode to different format attribute sets, so that their runs stay
distinct delta segments on the shared side. -/
def adjOk (ctx : Ctx) : PNode → PList → Prop
  | .text _ ms, .cons (.text _ ms2) _ =>
    attrMapsDiffer (canonTextAttrs ctx ms) (canonTextAttrs ctx ms2)
  | _, _ => True

mutual
/-- Well-formedness of an editable subtree for the round-trip: clean
attributes, marks that respect the overlap rules and the schema, schema
validity of every node content, nonempty text, and separation of adjacent
text runs. -/
inductive WFP : Ctx → PNode → Prop where
  | text : ∀ ctx s ms, s ≠ "" → TextMarksOk ctx ms → WFP ctx (.text s ms)
  | node : ∀ ctx name attrs marks content,
      NodeAttrsOk attrs → NodeMarksOk ctx marks →
      ctx.schemaValid name content.toList = true →
      WFPL ctx content → WFP ctx (.node name attrs marks content)
inductive WFPL : Ctx → PList → Prop where
  | nil : ∀ ctx, WFPL ctx .nil
  | cons : ∀ ctx h t, WFP ctx h → adjOk ctx h t → WFPL ctx t →
      WFPL ctx (.cons h t)
end

/-- Sample schema context used by concrete witnesses: every node content
is valid and every mark type is known and excludes itself. -/
def ctxSample : Ctx := ⟨7, fun _ => "aaaaaaaa", fun _ _ => true, fun _ => some true⟩

/-- Restrictive schema context for the self-healing witness: the schema
rejects every node named badnode. -/
def ctxReject : Ctx :=
  ⟨7, fun _ => "aaaaaaaa", fun n _ => n != "badnode", fun _ => some true⟩

/-- Sample well-formed editable node used by the round-trip witness. -/
def pSample : PNode := PNode.node "p" [("k", AVal.int 3)] []
  (PList.ofList [PNode.text "hi" [Mark.mk "em" true []], PNode.text "yo" []])

/-- The span createTypeFromTextNodes emits for one editable text node when
the overlapping-mark cache agrees with the schema. -/
def spanOfTextNode (ctx : Ctx) (n : PNode) : Span :=
  Span.mk (n.textValue.getD "") (canonTextAttrs ctx n.marksList)

/-- The attribute bindings nodeMarksToAttributes emits, one reserved-key
binding per node-level mark in order. -/
def nodeMarkAttrsCanon (ms : List Mark) : List (String × AVal) :=
  ms.map (fun m => (markPrefixStr ++ m.typeName, m.toJSON))

/-- Adjacent-pair form of the separation requirement on editable children:
two neighboring text nodes encode to different format attribute sets. -/
def textAdjDiffer (ctx : Ctx) (a b : PNode) : Prop :=
  match a, b with
  | .text _ ms, .text _ ms2 =>
    attrMapsDiffer (canonTextAttrs ctx ms) (canonTextAttrs ctx ms2)
  | _, _ => True

/-- Well-formedness of one normalized content slot, as produced by
normalizePNodeContent from a well-formed child list. -/
def SlotWF (ctx : Ctx) : PSlot → Prop
  | .one n => WFP ctx n ∧ n.isText = false
  | .texts ts => ts ≠ [] ∧ (∀ n ∈ ts, n.isText = true ∧ WFP ctx n) ∧
      List.Chain' (textAdjDiffer ctx) ts

/-- No two consecutive text slots: normalizePNodeContent groups maximal
text runs, so its output always satisfies this. -/
def noTwoTexts : List PSlot → Prop
  | .texts _ :: .texts _ :: _ => False
  | _ :: rest => noTwoTexts rest
  | [] => True

/-- Facts carried by one shared child built by the forward converter from
one normalized slot: the shape of the shared node, its identity interval,
the rebuild behavior on any mapping with no entries in the interval, and
the structural-equality verdict. -/
def SlotBuilt (ctx : Ctx) (fuel g g2 : Nat) : PSlot → YNode → Prop
  | .one n, c =>
    (∃ eid ecl nm at2 ch, c = YNode.elem true eid ecl false nm at2 ch) ∧
    g ≤ c.idOf ∧ c.idOf < g2 ∧
    (∀ meta3, (∀ k, g ≤ k → k < g2 → mappingGet meta3 k = none) →
      ∃ meta4, createNodeFromYElement ctx fuel c meta3 =
          some (c, some n, meta4) ∧
        ∀ k, k < g ∨ g2 ≤ k → mappingGet meta4 k = mappingGet meta3 k) ∧
    equalYTypePNode (fuel + 2) c (.one n) = some true
  | .texts ts, c =>
    ∃ tid spans, c = YNode.text tid ctx.clientID false spans ∧
      createTextNodesFromYText ctx spans = some ts ∧
      equalYTypePNode (fuel + 2) c (.texts ts) = some true

/-- Chained SlotBuilt facts over a slot list, with consecutive identity
intervals covering the interval of the enclosing build. -/
def SlotsBuilt (ctx : Ctx) (fuel : Nat) : Nat → Nat → List PSlot →
    List YNode → Prop
  | g, g2, [], [] => g ≤ g2
  | g, g2, s :: ss, c :: cs =>
    ∃ gm, g ≤ gm ∧ gm ≤ g2 ∧ SlotBuilt ctx fuel g gm s c ∧
      SlotsBuilt ctx fuel gm g2 ss cs
  | _, _, _, _ => False

def ytSample : YNode :=
  YNode.elem true 0 7 false "p" [("k", AVal.int 3)]
    (YList.ofList [YNode.text 1 7 false
      [Span.mk "hi" [("em", AVal.obj (AFields.ofList []))], Span.mk "yo" []]])

/-- An overlapping mark type (one that does not exclude itself) in two
instances with different attribute maps, as the overlap rules permit on a
single text node. -/
def markOv1 : Mark := Mark.mk "em" false [("a", AVal.int 1)]

def markOv2 : Mark := Mark.mk "em" false [("a", AVal.int 2)]

/-- Schema context for the overlapping-marks scenario: the em mark type
does not exclude itself, and the hash function separates the two mark
instances, as the real hash of their distinct JSON forms does. -/
def ctxOverlap : Ctx :=
  ⟨7, fun v => if v == markOv1.toJSON then "aaaaaaaa" else "bbbbbbbb",
   fun _ _ => true, fun _ => some false⟩

/-- Editable node carrying one text child with two coexisting instances of
the overlapping mark type. -/
def pOverlap : PNode :=
  PNode.node "p" [] [] (PList.ofList [PNode.text "hi" [markOv1, markOv2]])

/-- The shared type the forward converter builds from pOverlap: one text
run whose span carries the two hash-suffixed format attributes. -/
def ytOverlap : YNode :=
  YNode.elem true 0 7 false "p" []
    (YList.ofList [YNode.text 1 7 false
      [Span.mk "hi"
        [("em--aaaaaaaa", AVal.obj (AFields.ofList [("a", AVal.int 1)])),
         ("em--bbbbbbbb", AVal.obj (AFields.ofList [("a", AVal.int 2)]))]]])

theorem find?_filter_ne_none {α : Type} (l : List (Nat × α)) (k : Nat) :
    (l.filter (fun kv => kv.1 != k)).find? (fun kv => kv.1 == k) = none := by
  induction l with
  | nil => rfl
  | cons h t ih =>
    by_cases hk : h.1 = k
    · simp [List.filter, hk, ih]
    · have h1 : (h.1 != k) = true := by simp [hk]
      have h2 : (h.1 == k) = false := by simp [hk]
      simp only [List.filter, h1, List.find?, h2, ih]

theorem mappingGet_del_self (m : Meta) (k : Nat) :
    mappingGet (mappingDel m k) k = none := by
  simp [mappingGet, mappingDel, find?_filter_ne_none]

theorem lastDotRun_all_dot : ∀ (l acc : List Char),
    (∀ c ∈ l, isRegexDotChar c = true) →
    l.foldl (fun acc c => if isRegexDotChar c then acc ++ [c] else []) acc =
      acc ++ l := by
  intro l
  induction l with
  | nil => intro acc _; simp
  | cons c t ih =>
    intro acc h
    have hc : isRegexDotChar c = true := h c (by simp)
    simp only [List.foldl, hc, if_pos]
    rw [ih (acc ++ [c]) (fun x hx => h x (by simp [hx]))]
    simp

/-- Claim C10 as frozen is false on the code: the attribute name joining
the prefix with a line feed to a valid eight-character hash suffix ends in
a hash suffix, yet yattr2markname returns only the part of the prefix
after the line feed, because the dot of the regex does not match a line
terminator and the exec scan restarts after it. -/
theorem C10_markname_counterexample :
    ("a\nb--abcdefgh" = "a\nb" ++ "--" ++ "abcdefgh") ∧
    ("abcdefgh".toList.length = 8 ∧
      ∀ c ∈ "abcdefgh".toList, isHashClassChar c = true) ∧
    yattr2markname "a\nb--abcdefgh" = "b" ∧ "b" ≠ "a\nb" := by
  refine ⟨by decide, ⟨by decide, by decide⟩, by decide, by decide⟩

theorem stringOfData_eq {s t : String} (h : s.data = t.data) : s = t := by
  cases s; cases t; exact congrArg String.mk h

theorem toList_append3 (pre mid hs : String) :
    (pre ++ mid ++ hs).toList = pre.toList ++ mid.toList ++ hs.toList := by
  simp [String.toList, String.data_append]

theorem lastDotRun_eq_self (l : List Char)
    (h : ∀ c ∈ l, isRegexDotChar c = true) : lastDotRun l = l := by
  unfold lastDotRun
  rw [lastDotRun_all_dot l [] h]
  simp

/-- Claim C10, amended to the code: for an attribute name whose prefix
contains no line terminator, a final hash suffix (two dashes and exactly
eight hash-class characters) is stripped, yielding the prefix; a name that
does not end in such a suffix is returned unchanged.  When the prefix does
contain a line terminator, only the part after the last terminator is
returned (see the counterexample). -/
theorem C10_markname_amended :
    (∀ pre hs : String,
      (∀ c ∈ pre.toList, isRegexDotChar c = true) →
      hs.toList.length = 8 →
      (∀ c ∈ hs.toList, isHashClassChar c = true) →
      yattr2markname (pre ++ "--" ++ hs) = pre) ∧
    (∀ name : String,
      (¬ ∃ pre hs : String, name = pre ++ "--" ++ hs ∧ hs.toList.length = 8 ∧
        ∀ c ∈ hs.toList, isHashClassChar c = true) →
      yattr2markname name = name) := by
  constructor
  · intro pre hs hdot hlen hclass
    have hmid : ("--" : String).toList = ['-', '-'] := by decide
    have hcs : (pre ++ "--" ++ hs).toList =
        pre.toList ++ (['-', '-'] ++ hs.toList) := by
      rw [toList_append3, hmid, List.append_assoc]
    have hlenc : (pre.toList ++ (['-', '-'] ++ hs.toList)).length =
        pre.toList.length + 10 := by
      rw [List.length_append, List.length_append, hlen]
      rfl
    have h10 : (pre.toList ++ (['-', '-'] ++ hs.toList)).length - 10 =
        pre.toList.length := by omega
    have h8 : (pre.toList ++ (['-', '-'] ++ hs.toList)).length - 8 =
        (pre.toList ++ ['-', '-']).length := by
      rw [hlenc, List.length_append]
      have : (['-', '-'] : List Char).length = 2 := rfl
      omega
    have hdrop1 : (pre.toList ++ (['-', '-'] ++ hs.toList)).drop
        pre.toList.length = ['-', '-'] ++ hs.toList := List.drop_left _ _
    have hdrop2 : (pre.toList ++ (['-', '-'] ++ hs.toList)).drop
        ((pre.toList ++ ['-', '-']).length) = hs.toList := by
      rw [← List.append_assoc]; exact List.drop_left _ _
    have hsm : hashSuffixMatches
        (pre.toList ++ (['-', '-'] ++ hs.toList)) = true := by
      unfold hashSuffixMatches
      rw [h10, h8, hdrop1, hdrop2, hlenc]
      simp only [Bool.and_eq_true, decide_eq_true_eq, beq_iff_eq,
        List.all_eq_true]
      refine ⟨⟨by omega, rfl⟩, hclass⟩
    unfold yattr2markname
    rw [hcs]
    simp only [hsm, if_pos]
    rw [h10, List.take_left, lastDotRun_eq_self _ hdot]
    exact stringOfData_eq rfl
  · intro name hne
    have hsm : hashSuffixMatches name.toList = false := by
      by_contra hcon
      have htrue : hashSuffixMatches name.toList = true := by
        revert hcon; cases hashSuffixMatches name.toList <;> simp
      apply hne
      unfold hashSuffixMatches at htrue
      simp only [Bool.and_eq_true, decide_eq_true_eq, beq_iff_eq] at htrue
      obtain ⟨⟨h10, hdd⟩, hcl⟩ := htrue
      set cs := name.toList with hcsdef
      refine ⟨String.mk (cs.take (cs.length - 10)),
        String.mk (cs.drop (cs.length - 8)), ?_, ?_, ?_⟩
      · apply stringOfData_eq
        show name.data = _
        have hstep : cs = cs.take (cs.length - 10) ++
            (['-', '-'] ++ cs.drop (cs.length - 8)) := by
          conv_lhs => rw [← List.take_append_drop (cs.length - 10) cs]
          congr 1
          have hdec : cs.drop (cs.length - 10) =
              (cs.drop (cs.length - 10)).take 2 ++
              (cs.drop (cs.length - 10)).drop 2 := by
            rw [List.take_append_drop]
          rw [hdec]
          have h2 : (cs.drop (cs.length - 10)).drop 2 =
              cs.drop (cs.length - 8) := by
            rw [List.drop_drop]
            congr 1
            omega
          rw [hdd, h2]
        rw [String.data_append, String.data_append]
        show cs = List.take (cs.length - 10) cs ++ ("--").data ++
          List.drop (cs.length - 8) cs
        rw [List.append_assoc]
        exact hstep
      · show (cs.drop (cs.length - 8)).length = 8
        rw [List.length_drop]
        omega
      · intro c hc
        rw [List.all_eq_true] at hcl
        exact hcl c hc
    have hsm2 : hashSuffixMatches name.data = false := hsm
    simp [yattr2markname, hsm, hsm2]

theorem C10_markname_amended_witness :
    yattr2markname ("bold" ++ "--" ++ "abcd1234") = "bold" ∧
    yattr2markname "plain" = "plain" := by
  refine ⟨C10_markname_amended.1 "bold" "abcd1234" (by decide) (by decide)
    (by decide), C10_markname_amended.2 "plain" ?_⟩
  rintro ⟨pre, hs, heq, hlen, -⟩
  have h5 : ("plain" : String).toList.length = 5 := by decide
  rw [heq, toList_append3, List.length_append, List.length_append, hlen] at h5
  have h2 : ("--" : String).toList.length = 2 := by decide
  omega

/-- Claim C8 as frozen is false on the code: for a stored node selection
whose anchor no longer resolves (resolution returns null), the source
still calls tr.setSelection with NodeSelection.create applied to the null
anchor — a selection set is attempted, instead of leaving the default
selection in place. -/
theorem C8_selection_counterexample :
    restoreRelativeSelection (fun _ => none)
      (some (RelSel.mk "node" (some 0) (some 0))) =
      some (SelAction.nodeSel none) := rfl

/-- Claim C8, amended to the code: the fallback behavior holds for range
selections (any stored kind other than all and node): when either
endpoint fails to resolve, no selection is set, and a selection is set
only when both resolved positions are non-null.  For the node kind the
resolved anchor is passed to NodeSelection.create without a null check
(see the counterexample); the all kind resolves nothing. -/
theorem C8_selection_amended (resolve : Nat → Option Nat) (rs : RelSel)
    (hAll : rs.relType ≠ "all") (hNode : rs.relType ≠ "node") :
    (∀ act, restoreRelativeSelection resolve (some rs) = some act →
      ∃ anc hd a h, rs.anchor = some anc ∧ rs.head = some hd ∧
        resolve anc = some a ∧ resolve hd = some h ∧
        act = SelAction.textSel a h) ∧
    (∀ anc hd, rs.anchor = some anc → rs.head = some hd →
      (resolve anc = none ∨ resolve hd = none) →
      restoreRelativeSelection resolve (some rs) = none) := by
  have hA : (rs.relType == "all") = false := by
    simp [hAll]
  have hN : (rs.relType == "node") = false := by
    simp [hNode]
  obtain ⟨rt, anc?, hd?⟩ := rs
  simp only at hA hN
  constructor
  · intro act hact
    cases anc? with
    | none => cases hact
    | some anc =>
      cases hd? with
      | none => cases hact
      | some hd =>
        unfold restoreRelativeSelection at hact
        simp only [hA, hN, Bool.false_eq_true, if_false] at hact
        cases hra : resolve anc with
        | none => rw [hra] at hact; cases hact
        | some a =>
          cases hrh : resolve hd with
          | none => rw [hra, hrh] at hact; cases hact
          | some h =>
            rw [hra, hrh] at hact
            exact ⟨anc, hd, a, h, rfl, rfl, hra, hrh, by
              cases hact; rfl⟩
  · intro anc hd hanc hhd hres
    cases hanc
    cases hhd
    unfold restoreRelativeSelection
    simp only [hA, hN, Bool.false_eq_true, if_false]
    rcases hres with hra | hrh
    · rw [hra]
    · rw [hrh]
      cases resolve anc <;> rfl

theorem C8_selection_amended_witness :
    restoreRelativeSelection (fun _ => none)
      (some (RelSel.mk "text" (some 0) (some 0))) = none :=
  (C8_selection_amended (fun _ => none) (RelSel.mk "text" (some 0) (some 0))
    (by decide) (by decide)).2 0 0 rfl rfl (Or.inl rfl)

/-- Claim C5: for a rendering pair in which the previous snapshot is not
newer than the current one (its version vector is dominated and its
delete-set contained, and everything the current snapshot records as
deleted is tombstoned by now), a top-level shared node is included in
the rendered fragment if and only if it is visible under the current
snapshot or under the previous one. -/
theorem C5_snapshot_window (item : YItemInfo) (snap prev : YSnapshot)
    (hsv : ∀ c k, svGet prev.sv c = some k →
      ∃ k2, svGet snap.sv c = some k2 ∧ k ≤ k2)
    (hds : ∀ c k, dsIsDeleted prev.ds c k = true →
      dsIsDeleted snap.ds c k = true)
    (htomb : dsIsDeleted snap.ds item.client item.clock = true →
      item.deleted = true) :
    (renderIncluded item snap prev = true ↔
      (isVisible item (some snap) = true ∨ isVisible item (some prev) = true)) := by
  have h1 := hds item.client item.clock
  unfold renderIncluded listedBySnapshotMix isVisible
  cases hA : svGet snap.sv item.client with
  | none =>
    simp only [hA]
    constructor
    · intro h; simp at h
    · intro h
      rcases h with h | h
      · simp at h
      · cases hP : svGet prev.sv item.client with
        | none => rw [hP] at h; simp at h
        | some k =>
          obtain ⟨k2, hk2, -⟩ := hsv item.client k hP
          rw [hk2] at hA; cases hA
  | some clkS =>
    cases hP : svGet prev.sv item.client with
    | none =>
      simp only [hA, hP, Bool.and_eq_true, Bool.or_eq_true,
        Bool.not_eq_true', decide_eq_true_eq]
      cases hdel : item.deleted <;>
        cases hdS : dsIsDeleted snap.ds item.client item.clock <;>
        cases hdP : dsIsDeleted prev.ds item.client item.clock <;>
        by_cases hlt : item.clock < clkS <;>
        simp_all
    | some kP =>
      obtain ⟨k2, hk2, hle⟩ := hsv item.client kP hP
      rw [hA] at hk2
      injection hk2 with hk2e
      subst hk2e
      have hmono : item.clock < kP → item.clock < clkS := by omega
      simp only [hA, hP, Bool.and_eq_true, Bool.or_eq_true,
        Bool.not_eq_true', decide_eq_true_eq]
      cases hdel : item.deleted <;>
        cases hdS : dsIsDeleted snap.ds item.client item.clock <;>
        cases hdP : dsIsDeleted prev.ds item.client item.clock <;>
        by_cases hlt : item.clock < clkS <;>
        by_cases hltP : item.clock < kP <;>
        simp_all

theorem C5_snapshot_window_witness :
    renderIncluded (YItemInfo.mk 1 0 true)
      (YSnapshot.mk [(1, 5)] [DSRange.mk 1 0 1])
      (YSnapshot.mk [(1, 2)] []) = true := by
  have h := C5_snapshot_window (YItemInfo.mk 1 0 true)
    (YSnapshot.mk [(1, 5)] [DSRange.mk 1 0 1])
    (YSnapshot.mk [(1, 2)] [])
    (by intro c k hk
        refine ⟨5, ?_, ?_⟩ <;> revert hk <;> unfold svGet <;>
          by_cases hc : c = 1 <;> simp [hc] <;> intro h1 <;> omega)
    (by intro c k hk; simp [dsIsDeleted] at hk)
    (by intro _; rfl)
  exact h.mpr (Or.inr (by decide))

/-- Claim C3: when the forward synchronizer runs on a shared fragment
whose child list is exactly one text run and on an editable node with no
children, it clears the content of the run in place (the run stays in
the fragment, not tombstoned, with the same identity) and drops the run
from the mapping table. -/
theorem C3_empty_content_edge (ctx : Ctx) (fuel tid tc fid fc : Nat)
    (spans : List Span) (fname : String) (fattrs : List (String × AVal))
    (pname : String) (pattrs : List (String × AVal)) (pmarks : List Mark)
    (meta : Meta) :
    updateYFragment ctx (fuel + 1)
      (YNode.elem false fid fc false fname fattrs
        (YList.ofList [YNode.text tid tc false spans]))
      (PNode.node pname pattrs pmarks PList.nil) meta =
      some (YNode.elem false fid fc false fname fattrs
          (YList.ofList [YNode.text tid tc false []]),
        mappingDel (mappingSet meta fid (MapVal.single
          (PNode.node pname pattrs pmarks PList.nil))) tid, none) ∧
    mappingGet (mappingDel (mappingSet meta fid (MapVal.single
      (PNode.node pname pattrs pmarks PList.nil))) tid) tid = none := by
  constructor
  · unfold updateYFragment
    simp only [YList.ofList, YList.toList, PNode.typeName, Bool.false_and,
      Bool.false_eq_true, if_false, normalizePNodeContent, PNode.contentList,
      PList.toList, normGo, visibleList, List.filter, YNode.deletedOf,
      Bool.not_false, List.zip, List.zipWith, List.length_nil,
      List.length_cons, updScan, List.reverse_nil, List.take_nil, updateLoop]
    rfl
  · exact mappingGet_del_self _ _

/-- Claim C6: when the schema rejects the children built for a shared
element (the children violate the structural rules of the editable tree),
createNodeFromYElement catches the construction failure, deletes the
offending shared node (tombstones it within its own transaction), drops
its mapping entry, and returns null for the slot; the function is total,
so no exception reaches the caller. -/
theorem C6_self_healing (ctx : Ctx) (fuel : Nat) (isEl : Bool)
    (id client : Nat) (del : Bool) (nodeName : String)
    (yattrs : List (String × AVal)) (childrenL : YList) (meta : Meta)
    (cs1 : List YNode) (children1 : List PNode) (meta1 : Meta)
    (hbuild : buildChildrenGo ctx
      (fun c m =>
        match mappingGet m c.idOf with
        | some (.single n) => some (c, some n, m)
        | some (.texts _) => some (c, none, m)
        | none => createNodeFromYElement ctx fuel c m)
      (childrenL.toList.map (fun c => (!c.deletedOf, c))).length
      (childrenL.toList.map (fun c => (!c.deletedOf, c))) meta =
      some (cs1, children1, meta1))
    (hinvalid : ctx.schemaValid nodeName children1 = false) :
    createNodeFromYElement ctx (fuel + 1)
      (YNode.elem isEl id client del nodeName yattrs childrenL) meta =
      some (YNode.elem isEl id client true nodeName yattrs
        (YList.ofList cs1), none, mappingDel meta1 id) ∧
    mappingGet (mappingDel meta1 id) id = none := by
  constructor
  · simp only [createNodeFromYElement]
    rw [hbuild]
    cases hmk : yattrs.foldl (fun acc kv =>
        if kv.1.startsWith markPrefixStr then
          match acc with
          | none => none
          | some ms =>
            if isObjectA kv.2 then
              let markName := stripMarkKey kv.1
              match ctx.schemaMark markName with
              | none => none
              | some exc =>
                some (ms ++ [Mark.mk markName exc
                  (avalFields ((objGet (avalFields kv.2) "attrs").getD
                    AVal.null))])
            else some ms
        else acc) (some []) with
    | none => rfl
    | some ms => simp only [hinvalid, Bool.false_eq_true, if_false]
  · exact mappingGet_del_self _ _

theorem C6_self_healing_witness :
    createNodeFromYElement ctxReject 1
      (YNode.elem true 30 1 false "badnode" [] YList.nil)
      (Meta.mk [(30, MapVal.single (PNode.text "x" []))] [] 0) =
      some (YNode.elem true 30 1 true "badnode" [] (YList.ofList []), none,
        mappingDel (Meta.mk [(30, MapVal.single (PNode.text "x" []))] [] 0)
          30) ∧
    mappingGet (mappingDel
      (Meta.mk [(30, MapVal.single (PNode.text "x" []))] [] 0) 30) 30 =
      none :=
  C6_self_healing ctxReject 0 true 30 1 false "badnode" [] YList.nil
    (Meta.mk [(30, MapVal.single (PNode.text "x" []))] [] 0) [] []
    (Meta.mk [(30, MapVal.single (PNode.text "x" []))] [] 0) rfl rfl

/-- Claim C7: while building children, a visited text run whose immediate
right sibling item is another text run that is not deleted and was created
by this client first absorbs the content of the follower (its delta view
is appended to the leading run), the follower item is deleted with its
content, and only then are the editable text nodes of the leader created,
from the merged content; the continuation sees the follower tombstoned
and empty. -/
theorem C7_adjacent_merge (ctx : Ctx)
    (buildElem : YNode → Meta → Option (YNode × Option PNode × Meta))
    (budget tid tc : Nat) (tdel : Bool) (tspans : List Span) (nid : Nat)
    (nvisit : Bool) (nspans : List Span) (rest : List (Bool × YNode))
    (meta : Meta) (ns : List PNode)
    (out : List YNode × List PNode × Meta)
    (hmk : createTextNodesFromYText ctx (tspans ++ toDeltaSpans nspans) =
      some ns)
    (hrun : buildChildrenGo ctx buildElem (budget + 1)
      ((true, YNode.text tid tc tdel tspans) ::
        (nvisit, YNode.text nid ctx.clientID false nspans) :: rest) meta =
      some out) :
    ∃ cs ps m,
      out = (YNode.text tid tc tdel (tspans ++ toDeltaSpans nspans) :: cs,
        ns ++ ps, m) ∧
      buildChildrenGo ctx buildElem budget
        ((nvisit, YNode.text nid ctx.clientID true []) :: rest) meta =
        some (cs, ps, m) := by
  unfold buildChildrenGo at hrun
  simp only [Bool.not_true, Bool.false_eq_true, if_false, beq_self_eq_true,
    if_true, YNode.spansOf] at hrun
  rw [hmk] at hrun
  cases hrec : buildChildrenGo ctx buildElem budget
      ((nvisit, YNode.text nid ctx.clientID true []) :: rest) meta with
  | none => rw [hrec] at hrun; cases hrun
  | some r =>
    rw [hrec] at hrun
    simp only [Option.map_some] at hrun
    exact ⟨r.1, r.2.1, r.2.2, by cases hrun; rfl, rfl⟩

theorem C7_adjacent_merge_witness :
    ∃ cs ps m,
      (([YNode.text 40 7 false [Span.mk "ab" [], Span.mk "cd" []],
         YNode.text 41 7 true []], [PNode.text "abcd" []],
        (Meta.mk [] [] 0 : Meta)) :
          List YNode × List PNode × Meta) =
        (YNode.text 40 7 false ([Span.mk "ab" []] ++
          toDeltaSpans [Span.mk "cd" []]) :: cs,
         [PNode.text "abcd" []] ++ ps, m) ∧
      buildChildrenGo ctxSample (fun _ _ => none) 1
        ((true, YNode.text 41 7 true []) :: []) (Meta.mk [] [] 0) =
        some (cs, ps, m) :=
  C7_adjacent_merge ctxSample (fun _ _ => none) 1 40 7 false
    [Span.mk "ab" []] 41 true [Span.mk "cd" []] [] (Meta.mk [] [] 0)
    [PNode.text "abcd" []]
    ([YNode.text 40 7 false [Span.mk "ab" [], Span.mk "cd" []],
      YNode.text 41 7 true []], [PNode.text "abcd" []], Meta.mk [] [] 0)
    rfl rfl

/-- Claim C4 as frozen is false on the code: in the dirty-middle loop,
with both ends element nodes whose names match their editable
counterparts, both equality factors equal and both found-mapped flags
equal (the exact-tie case), updateYFragment descends into the LEFT side,
not the right.  Concretely, syncing a two-child shared document against a
one-child editable document under an exact tie updates the left shared
child in place (it receives the editable attributes and stays alive) and
tombstones the right one; a right descent would have kept the right child
alive instead. -/
theorem C4_tiebreak_counterexample :
    (computeChildEqualityFactor 4
        (YNode.elem true 10 1 false "p" [] YList.nil)
        (PNode.node "p" [("a", AVal.int 1)] [] PList.nil)
        (Meta.mk [(12, MapVal.single (PNode.node "doc" [] []
          (PList.ofList [PNode.node "p" [("a", AVal.int 1)] []
            PList.nil])))] [] 100) =
      some (0, false) ∧
     computeChildEqualityFactor 4
        (YNode.elem true 11 1 false "p" [] YList.nil)
        (PNode.node "p" [("a", AVal.int 1)] [] PList.nil)
        (Meta.mk [(12, MapVal.single (PNode.node "doc" [] []
          (PList.ofList [PNode.node "p" [("a", AVal.int 1)] []
            PList.nil])))] [] 100) =
      some (0, false)) ∧
    updateYFragment ctxSample 5
      (YNode.elem true 12 1 false "doc" [] (YList.ofList
        [YNode.elem true 10 1 false "p" [] YList.nil,
         YNode.elem true 11 1 false "p" [] YList.nil]))
      (PNode.node "doc" [] [] (PList.ofList
        [PNode.node "p" [("a", AVal.int 1)] [] PList.nil]))
      (Meta.mk [] [] 100) =
    some (YNode.elem true 12 1 false "doc" [] (YList.ofList
        [YNode.elem true 10 1 false "p" [("a", AVal.int 1)] YList.nil,
         YNode.elem true 11 1 true "p" [] YList.nil]),
      Meta.mk [(12, MapVal.single (PNode.node "doc" [] []
          (PList.ofList [PNode.node "p" [("a", AVal.int 1)] []
            PList.nil]))),
        (10, MapVal.single (PNode.node "p" [("a", AVal.int 1)] []
          PList.nil))] [] 100, none) := by
  refine ⟨⟨by decide, by decide⟩, by decide⟩


/-- Claim C4, amended to the code: in the dirty-middle loop of
updateYFragment, when both the left and the right shared children are
elements whose node names match their editable counterparts and the two
computed equality factors and found-mapped flags are exactly equal, the
loop descends into the LEFT side: it recursively updates the left shared
child and advances only the left pointer (on a raised error the pointers
stay and the loop aborts).  The callbacks are instantiated exactly as
updateYFragment passes them. -/
theorem C4_tiebreak_amended (ctx : Ctx) (fuel budget : Nat)
    (stale live : List YNode) (pChildren : List PSlot)
    (yCnt pCnt left right : Nat) (meta : Meta)
    (leftY rightY : YNode) (lp rp : PNode) (f : Nat) (b : Bool)
    (hcond : (decide (yCnt - left - right > 0) &&
      decide (pCnt - left - right > 0)) = true)
    (hsl : stale.get? left = some leftY)
    (hpl : pChildren.get? left = some (PSlot.one lp))
    (hsr : stale.get? (yCnt - right - 1) = some rightY)
    (hpr : pChildren.get? (pCnt - right - 1) = some (PSlot.one rp))
    (hul : (leftY.isXmlElement && matchNodeName leftY (PSlot.one lp)) = true)
    (hur : (rightY.isXmlElement && matchNodeName rightY (PSlot.one rp)) = true)
    (hcefL : computeChildEqualityFactor fuel leftY lp meta = some (f, b))
    (hcefR : computeChildEqualityFactor fuel rightY rp meta = some (f, b)) :
    updateLoop ctx (fun a b c => updateYFragment ctx fuel a b c)
      (fun a b c => computeChildEqualityFactor fuel a b c)
      (equalYTextPText fuel)
      (fun a b => createTypeFromTextOrElementNode ctx fuel a b)
      (budget + 1) stale live pChildren yCnt pCnt left right meta =
    (match updateYFragment ctx fuel leftY lp meta with
     | none => none
     | some (y1, meta1, some e) =>
       some (setVisibleAt live left y1, left, right, meta1, some e)
     | some (y1, meta1, none) =>
       updateLoop ctx (fun a b c => updateYFragment ctx fuel a b c)
         (fun a b c => computeChildEqualityFactor fuel a b c)
         (equalYTextPText fuel)
         (fun a b => createTypeFromTextOrElementNode ctx fuel a b)
         budget stale (setVisibleAt live left y1) pChildren yCnt pCnt
         (left + 1) right meta1) := by
  cases leftY with
  | text tid tc td tsp =>
    simp only [YNode.isXmlElement, Bool.false_and] at hul
    cases hul
  | elem e i c d n a ch =>
    simp only [updateLoop, hsl, hpl, hsr, hpr, hcond, Bool.not_true,
      Bool.false_eq_true, if_false, hul, hur, Bool.and_self, if_true,
      slotNode, hcefL, hcefR, Bool.and_not_self, Bool.not_and_self,
      Nat.lt_irrefl]
    cases hres : updateYFragment ctx fuel (YNode.elem e i c d n a ch) lp meta with
    | none => rfl
    | some r =>
      obtain ⟨y1, meta1, err⟩ := r
      cases err <;> rfl

theorem C4_tiebreak_amended_witness :
    updateLoop ctxSample
      (fun a b c => updateYFragment ctxSample 4 a b c)
      (fun a b c => computeChildEqualityFactor 4 a b c)
      (equalYTextPText 4)
      (fun a b => createTypeFromTextOrElementNode ctxSample 4 a b)
      2 [YNode.elem true 10 1 false "p" [] YList.nil,
         YNode.elem true 11 1 false "p" [] YList.nil]
      [YNode.elem true 10 1 false "p" [] YList.nil,
       YNode.elem true 11 1 false "p" [] YList.nil]
      [PSlot.one (PNode.node "p" [("a", AVal.int 1)] [] PList.nil)]
      2 1 0 0
      (Meta.mk [(12, MapVal.single (PNode.node "doc" [] []
        (PList.ofList [PNode.node "p" [("a", AVal.int 1)] []
          PList.nil])))] [] 100) =
    (match updateYFragment ctxSample 4
        (YNode.elem true 10 1 false "p" [] YList.nil)
        (PNode.node "p" [("a", AVal.int 1)] [] PList.nil)
        (Meta.mk [(12, MapVal.single (PNode.node "doc" [] []
          (PList.ofList [PNode.node "p" [("a", AVal.int 1)] []
            PList.nil])))] [] 100) with
     | none => none
     | some (y1, meta1, some e) =>
       some (setVisibleAt
         [YNode.elem true 10 1 false "p" [] YList.nil,
          YNode.elem true 11 1 false "p" [] YList.nil] 0 y1, 0, 0, meta1,
         some e)
     | some (y1, meta1, none) =>
       updateLoop ctxSample
         (fun a b c => updateYFragment ctxSample 4 a b c)
         (fun a b c => computeChildEqualityFactor 4 a b c)
         (equalYTextPText 4)
         (fun a b => createTypeFromTextOrElementNode ctxSample 4 a b)
         1 [YNode.elem true 10 1 false "p" [] YList.nil,
            YNode.elem true 11 1 false "p" [] YList.nil]
         (setVisibleAt
           [YNode.elem true 10 1 false "p" [] YList.nil,
            YNode.elem true 11 1 false "p" [] YList.nil] 0 y1)
         [PSlot.one (PNode.node "p" [("a", AVal.int 1)] [] PList.nil)]
         2 1 1 0 meta1) :=
  C4_tiebreak_amended ctxSample 4 1
    [YNode.elem true 10 1 false "p" [] YList.nil,
     YNode.elem true 11 1 false "p" [] YList.nil]
    [YNode.elem true 10 1 false "p" [] YList.nil,
     YNode.elem true 11 1 false "p" [] YList.nil]
    [PSlot.one (PNode.node "p" [("a", AVal.int 1)] [] PList.nil)]
    2 1 0 0
    (Meta.mk [(12, MapVal.single (PNode.node "doc" [] []
      (PList.ofList [PNode.node "p" [("a", AVal.int 1)] []
        PList.nil])))] [] 100)
    (YNode.elem true 10 1 false "p" [] YList.nil)
    (YNode.elem true 11 1 false "p" [] YList.nil)
    (PNode.node "p" [("a", AVal.int 1)] [] PList.nil)
    (PNode.node "p" [("a", AVal.int 1)] [] PList.nil)
    0 false (by decide) rfl rfl rfl rfl (by decide) (by decide)
    (by decide) (by decide)

theorem cefScan_stop (mi : YNode → PSlot → Bool)
    (eq : YNode → PSlot → Option Bool) (y : YNode) (s : PSlot)
    (rest : List (YNode × PSlot)) (hmi : mi y s = false)
    (heq : eq y s = some false) :
    cefScan mi eq ((y, s) :: rest) = some (0, false) := by
  unfold cefScan
  rw [hmi, heq]
  simp

theorem cefScan_allTrue (mi : YNode → PSlot → Bool)
    (eq : YNode → PSlot → Option Bool) :
    ∀ l : List (YNode × PSlot), (∀ p ∈ l, eq p.1 p.2 = some true) →
      ∃ fl, cefScan mi eq l = some (l.length, fl) := by
  intro l
  induction l with
  | nil => intro _; exact ⟨false, rfl⟩
  | cons p rest ih =>
    intro h
    obtain ⟨y, s⟩ := p
    obtain ⟨fl, hfl⟩ := ih (fun q hq => h q (by simp [hq]))
    cases hmi : mi y s with
    | true =>
      refine ⟨true, ?_⟩
      unfold cefScan
      rw [hmi, hfl]
      simp
    | false =>
      refine ⟨fl, ?_⟩
      unfold cefScan
      rw [hmi, h (y, s) (by simp), hfl]
      simp

theorem cefScan_prefix (mi : YNode → PSlot → Bool)
    (eq : YNode → PSlot → Option Bool) :
    ∀ (goods l : List (YNode × PSlot)) (r : Nat × Bool),
      (∀ p ∈ goods, eq p.1 p.2 = some true) →
      cefScan mi eq l = some r →
      ∃ fl, cefScan mi eq (goods ++ l) = some (goods.length + r.1, fl) := by
  intro goods
  induction goods with
  | nil => intro l r _ hl; exact ⟨r.2, by simpa using hl⟩
  | cons p rest ih =>
    intro l r h hl
    obtain ⟨y, s⟩ := p
    obtain ⟨fl, hfl⟩ := ih l r (fun q hq => h q (by simp [hq])) hl
    cases hmi : mi y s with
    | true =>
      refine ⟨true, ?_⟩
      rw [List.cons_append]
      unfold cefScan
      rw [hmi, hfl]
      simp
      omega
    | false =>
      refine ⟨fl, ?_⟩
      rw [List.cons_append]
      unfold cefScan
      rw [hmi, h (y, s) (by simp), hfl]
      simp
      omega

theorem zip_reverse_eq {α β : Type} : ∀ (l1 : List α) (l2 : List β),
    l1.length = l2.length →
    l1.reverse.zip l2.reverse = (l1.zip l2).reverse := by
  intro l1
  induction l1 with
  | nil => intro l2 h; cases l2 with
    | nil => rfl
    | cons b t => cases h
  | cons a t ih =>
    intro l2 h
    cases l2 with
    | nil => cases h
    | cons b t2 =>
      have hlen : t.length = t2.length := by
        simpa using h
      have hrl : t.reverse.length = t2.reverse.length := by
        simp [hlen]
      simp only [List.reverse_cons]
      rw [List.zip_append hrl, ih t2 hlen]
      simp

/-- Claim C2: for a shared children sequence and a normalized editable
children sequence that differ only by one element inserted strictly in
the middle (positions before the insertion pairwise structurally equal,
positions after it pairwise equal against the shifted index, and the
inserted slot neither identity-mapped nor equal to either neighbor
position), computeChildEqualityFactor reports an equality factor equal to
the length of the shorter sequence. -/
theorem C2_alignment_minimality (fuel : Nat) (ytype : YNode) (pnode : PNode)
    (meta : Meta) (ypre ypost : List YNode) (spre stail : List PSlot)
    (yj : YNode) (sIns : PSlot)
    (hys : visibleList ytype.childrenOf = ypre ++ yj :: ypost)
    (hps : normalizePNodeContent pnode = spre ++ sIns :: stail)
    (hlen : spre.length = ypre.length)
    (hlen2 : stail.length = ypost.length + 1)
    (hmid : 0 < ypre.length)
    (hpre : ∀ p ∈ ypre.zip spre, equalYTypePNode fuel p.1 p.2 = some true)
    (hpost : ∀ p ∈ (yj :: ypost).zip stail,
      equalYTypePNode fuel p.1 p.2 = some true)
    (hinsR : equalYTypePNode fuel yj sIns = some false)
    (hinsMi : mappedIdentity (mappingGet meta yj.idOf) sIns = false)
    (hinsL : ∀ ylast ∈ ypre.getLast?,
      equalYTypePNode fuel ylast sIns = some false) :
    (computeChildEqualityFactor fuel ytype pnode meta).map Prod.fst =
      some (min (visibleList ytype.childrenOf).length
        (normalizePNodeContent pnode).length) := by
  have hzip1 : (ypre ++ yj :: ypost).zip (spre ++ sIns :: stail) =
      ypre.zip spre ++ ((yj, sIns) :: ypost.zip stail) := by
    rw [List.zip_append hlen.symm]
    rfl
  have hstop : cefScan
      (fun y p => mappedIdentity (mappingGet meta y.idOf) p)
      (equalYTypePNode fuel) ((yj, sIns) :: ypost.zip stail) =
      some (0, false) :=
    cefScan_stop _ _ _ _ _ hinsMi hinsR
  obtain ⟨flL, hL⟩ := cefScan_prefix
    (fun y p => mappedIdentity (mappingGet meta y.idOf) p)
    (equalYTypePNode fuel) (ypre.zip spre) ((yj, sIns) :: ypost.zip stail)
    (0, false) hpre hstop
  have hzl : (ypre.zip spre).length = ypre.length := by
    simp [List.length_zip, hlen]
  have hylen : (ypre ++ yj :: ypost).length =
      ypre.length + (ypost.length + 1) := by simp
  have hplen : (spre ++ sIns :: stail).length =
      ypre.length + (ypost.length + 1) + 1 := by simp [hlen, hlen2]; omega
  -- the right-scan pair list
  have hrevzip : (ypre ++ yj :: ypost).reverse.zip
      (spre ++ sIns :: stail).reverse =
      ((yj :: ypost).zip stail).reverse ++
        ypre.reverse.zip ([sIns] ++ spre.reverse) := by
    rw [List.reverse_append, List.reverse_append]
    have hco : (sIns :: stail).reverse = stail.reverse ++ [sIns] := by
      simp
    rw [hco, List.append_assoc]
    have hrl : (yj :: ypost).reverse.length = stail.reverse.length := by
      simp [hlen2]
    rw [List.zip_append hrl, zip_reverse_eq _ _ (by simp [hlen2])]
  have hfirstlen : (((yj :: ypost).zip stail).reverse).length =
      ypost.length + 1 := by
    simp [List.length_zip, hlen2]
  have htake : (((yj :: ypost).zip stail).reverse ++
      ypre.reverse.zip ([sIns] ++ spre.reverse)).take (ypost.length + 1) =
      ((yj :: ypost).zip stail).reverse := by
    rw [← hfirstlen]
    exact List.take_left _ _
  obtain ⟨flR, hR⟩ := cefScan_allTrue
    (fun y p => mappedIdentity (mappingGet meta y.idOf) p)
    (equalYTypePNode fuel) (((yj :: ypost).zip stail).reverse)
    (fun p hp => hpost p (List.mem_reverse.mp hp))
  have hmin : min (ypre ++ yj :: ypost).length (spre ++ sIns :: stail).length =
      ypre.length + (ypost.length + 1) := by
    rw [hylen, hplen]
    omega
  have hsub : ypre.length + (ypost.length + 1) - ypre.length =
      ypost.length + 1 := by omega
  simp only [computeChildEqualityFactor, hys, hps]
  rw [hzip1, hL]
  simp only [hmin, hzl, Nat.add_zero, hsub, hrevzip, htake, hR, hfirstlen,
    Option.map_some', Option.some.injEq]

theorem C2_alignment_minimality_witness :
    (computeChildEqualityFactor 4
      (YNode.elem true 52 1 false "doc" [] (YList.ofList
        [YNode.elem true 50 1 false "a" [] YList.nil,
         YNode.elem true 51 1 false "b" [] YList.nil]))
      (PNode.node "doc" [] [] (PList.ofList
        [PNode.node "a" [] [] PList.nil,
         PNode.node "c" [] [] PList.nil,
         PNode.node "b" [] [] PList.nil]))
      (Meta.mk [] [] 0)).map Prod.fst =
    some (min
      (visibleList (YNode.elem true 52 1 false "doc" [] (YList.ofList
        [YNode.elem true 50 1 false "a" [] YList.nil,
         YNode.elem true 51 1 false "b" [] YList.nil])).childrenOf).length
      (normalizePNodeContent (PNode.node "doc" [] [] (PList.ofList
        [PNode.node "a" [] [] PList.nil,
         PNode.node "c" [] [] PList.nil,
         PNode.node "b" [] [] PList.nil]))).length) :=
  C2_alignment_minimality 4
    (YNode.elem true 52 1 false "doc" [] (YList.ofList
      [YNode.elem true 50 1 false "a" [] YList.nil,
       YNode.elem true 51 1 false "b" [] YList.nil]))
    (PNode.node "doc" [] [] (PList.ofList
      [PNode.node "a" [] [] PList.nil,
       PNode.node "c" [] [] PList.nil,
       PNode.node "b" [] [] PList.nil]))
    (Meta.mk [] [] 0)
    [YNode.elem true 50 1 false "a" [] YList.nil] []
    [PSlot.one (PNode.node "a" [] [] PList.nil)]
    [PSlot.one (PNode.node "b" [] [] PList.nil)]
    (YNode.elem true 51 1 false "b" [] YList.nil)
    (PSlot.one (PNode.node "c" [] [] PList.nil))
    rfl rfl rfl rfl (by decide)
    (by decide) (by decide)
    (by decide) (by decide)
    (by intro y hy; simp at hy; subst hy; decide)

theorem matchNodeName_name_eq (y : YNode) (s : PSlot) (p : PNode)
    (h : matchNodeName y s = true) (hp : slotNode s = some p) :
    y.nodeNameOf = p.typeName := by
  cases y with
  | text a b c d => cases s <;> simp [matchNodeName] at h
  | elem isEl id cl del nm attrs ch =>
    cases s with
    | texts ts => simp [slotNode] at hp
    | one q =>
      cases isEl with
      | false => simp [matchNodeName] at h
      | true =>
        simp only [slotNode, Option.some.injEq] at hp
        subst hp
        simp only [matchNodeName, beq_iff_eq] at h
        exact h

theorem updateLoop_err_none (ctx : Ctx)
    (recur : YNode → PNode → Meta → Option (YNode × Meta × Option String))
    (cef : YNode → PNode → Meta → Option (Nat × Bool))
    (eqTxt : List Span → List PNode → Option Bool)
    (mkType : PSlot → Meta → Option (YNode × Meta))
    (Hrec : ∀ yn pn m y2 m2 e, recur yn pn m = some (y2, m2, some e) →
      yn.nodeNameOf ≠ pn.typeName) :
    ∀ (budget : Nat) (stale live : List YNode) (pCh : List PSlot)
      (yCnt pCnt left right : Nat) (meta : Meta)
      (live1 : List YNode) (l1 r1 : Nat) (m1 : Meta) (err : Option String),
    updateLoop ctx recur cef eqTxt mkType budget stale live pCh yCnt pCnt
      left right meta = some (live1, l1, r1, m1, err) → err = none := by
  intro budget
  induction budget with
  | zero =>
    intro stale live pCh yCnt pCnt left right meta live1 l1 r1 m1 err h
    rw [updateLoop] at h
    split at h
    · exact Option.noConfusion h
    · simp only [Option.some.injEq, Prod.mk.injEq] at h
      exact h.2.2.2.2.symm
  | succ budget ih =>
    intro stale live pCh yCnt pCnt left right meta live1 l1 r1 m1 err h
    rw [updateLoop] at h
    split at h
    · simp only [Option.some.injEq, Prod.mk.injEq] at h
      exact h.2.2.2.2.symm
    · split at h
      case _ leftY leftP rightY rightP hgl hgpl hgr hgpr =>
        split at h
        case _ tid tclient tdel tspans ts =>
          split at h
          · exact Option.noConfusion h
          · split at h
            · exact ih _ _ _ _ _ _ _ _ _ _ _ _ _ h
            · exact ih _ _ _ _ _ _ _ _ _ _ _ _ _ h
        case _ hne =>
          split at h
          case _ lp rp heql heqr =>
            split at h
            case _ eL eR heqcL heqcR =>
              cases hb : leftY.isXmlElement && matchNodeName leftY leftP &&
                  (rightY.isXmlElement && matchNodeName rightY rightP) with
              | false =>
                simp only [hb] at h
                cases hbl : leftY.isXmlElement && matchNodeName leftY leftP with
                | true =>
                  simp only [hbl] at h
                  have hmmL : matchNodeName leftY leftP = true :=
                    ((Bool.and_eq_true _ _).mp hbl).2
                  cases hsl : slotNode leftP with
                  | none =>
                    simp only [hsl] at h
                    exact Option.noConfusion h
                  | some lp2 =>
                    simp only [hsl] at h
                    cases hrec : recur leftY lp2 meta with
                    | none =>
                      simp only [hrec] at h
                      exact Option.noConfusion h
                    | some trip =>
                      obtain ⟨y2, meta2, err2⟩ := trip
                      cases err2 with
                      | some e0 =>
                        exact absurd (matchNodeName_name_eq _ _ _ hmmL hsl)
                          (Hrec _ _ _ _ _ _ hrec)
                      | none =>
                        simp only [hrec] at h
                        exact ih _ _ _ _ _ _ _ _ _ _ _ _ _ h
                | false =>
                  simp only [hbl] at h
                  cases hbr : rightY.isXmlElement && matchNodeName rightY rightP with
                  | true =>
                    simp only [hbr] at h
                    have hmmR : matchNodeName rightY rightP = true :=
                      ((Bool.and_eq_true _ _).mp hbr).2
                    cases hsr : slotNode rightP with
                    | none =>
                      simp only [hsr] at h
                      exact Option.noConfusion h
                    | some rp2 =>
                      simp only [hsr] at h
                      cases hrec : recur rightY rp2 meta with
                      | none =>
                        simp only [hrec] at h
                        exact Option.noConfusion h
                      | some trip =>
                        obtain ⟨y2, meta2, err2⟩ := trip
                        cases err2 with
                        | some e0 =>
                          exact absurd (matchNodeName_name_eq _ _ _ hmmR hsr)
                            (Hrec _ _ _ _ _ _ hrec)
                        | none =>
                          simp only [hrec] at h
                          exact ih _ _ _ _ _ _ _ _ _ _ _ _ _ h
                  | false =>
                    simp only [hbr] at h
                    cases hgv : (visibleList live).get? left with
                    | none =>
                      simp only [hgv] at h
                      exact Option.noConfusion h
                    | some old =>
                      simp only [hgv] at h
                      cases hmk : mkType leftP (mappingDel meta old.idOf) with
                      | none =>
                        simp only [hmk] at h
                        exact Option.noConfusion h
                      | some r =>
                        simp only [hmk] at h
                        exact ih _ _ _ _ _ _ _ _ _ _ _ _ _ h
              | true =>
                simp only [hb] at h
                have hmmL : matchNodeName leftY leftP = true :=
                  ((Bool.and_eq_true _ _).mp ((Bool.and_eq_true _ _).mp hb).1).2
                have hmmR : matchNodeName rightY rightP = true :=
                  ((Bool.and_eq_true _ _).mp ((Bool.and_eq_true _ _).mp hb).2).2
                cases hc1 : eL.2 && !eR.2 with
                | true =>
                  simp only [hc1] at h
                  cases hsl : slotNode leftP with
                  | none =>
                    simp only [hsl] at h
                    exact Option.noConfusion h
                  | some lp2 =>
                    simp only [hsl] at h
                    cases hrec : recur leftY lp2 meta with
                    | none =>
                      simp only [hrec] at h
                      exact Option.noConfusion h
                    | some trip =>
                      obtain ⟨y2, meta2, err2⟩ := trip
                      cases err2 with
                      | some e0 =>
                        exact absurd (matchNodeName_name_eq _ _ _ hmmL hsl)
                          (Hrec _ _ _ _ _ _ hrec)
                      | none =>
                        simp only [hrec] at h
                        exact ih _ _ _ _ _ _ _ _ _ _ _ _ _ h
                | false =>
                  simp only [hc1] at h
                  cases hc2 : !eL.2 && eR.2 with
                  | true =>
                    simp only [hc2] at h
                    cases hsr : slotNode rightP with
                    | none =>
                      simp only [hsr] at h
                      exact Option.noConfusion h
                    | some rp2 =>
                      simp only [hsr] at h
                      cases hrec : recur rightY rp2 meta with
                      | none =>
                        simp only [hrec] at h
                        exact Option.noConfusion h
                      | some trip =>
                        obtain ⟨y2, meta2, err2⟩ := trip
                        cases err2 with
                        | some e0 =>
                          exact absurd (matchNodeName_name_eq _ _ _ hmmR hsr)
                            (Hrec _ _ _ _ _ _ hrec)
                        | none =>
                          simp only [hrec] at h
                          exact ih _ _ _ _ _ _ _ _ _ _ _ _ _ h
                  | false =>
                    simp only [hc2] at h
                    by_cases hc3 : eL.1 < eR.1
                    · rw [if_pos hc3] at h
                      cases hsr : slotNode rightP with
                      | none =>
                        simp only [hsr] at h
                        exact Option.noConfusion h
                      | some rp2 =>
                        simp only [hsr] at h
                        cases hrec : recur rightY rp2 meta with
                        | none =>
                          simp only [hrec] at h
                          exact Option.noConfusion h
                        | some trip =>
                          obtain ⟨y2, meta2, err2⟩ := trip
                          cases err2 with
                          | some e0 =>
                            exact absurd (matchNodeName_name_eq _ _ _ hmmR hsr)
                              (Hrec _ _ _ _ _ _ hrec)
                          | none =>
                            simp only [hrec] at h
                            exact ih _ _ _ _ _ _ _ _ _ _ _ _ _ h
                    · rw [if_neg hc3] at h
                      cases hsl : slotNode leftP with
                      | none =>
                        simp only [hsl] at h
                        exact Option.noConfusion h
                      | some lp2 =>
                        simp only [hsl] at h
                        cases hrec : recur leftY lp2 meta with
                        | none =>
                          simp only [hrec] at h
                          exact Option.noConfusion h
                        | some trip =>
                          obtain ⟨y2, meta2, err2⟩ := trip
                          cases err2 with
                          | some e0 =>
                            exact absurd (matchNodeName_name_eq _ _ _ hmmL hsl)
                              (Hrec _ _ _ _ _ _ hrec)
                          | none =>
                            simp only [hrec] at h
                            exact ih _ _ _ _ _ _ _ _ _ _ _ _ _ h
            case _ hnocef =>
              cases hb : leftY.isXmlElement && matchNodeName leftY leftP &&
                  (rightY.isXmlElement && matchNodeName rightY rightP) with
              | true =>
                simp only [hb] at h
                exact Option.noConfusion h
              | false =>
                simp only [hb] at h
                cases hbl : leftY.isXmlElement && matchNodeName leftY leftP with
                | true =>
                  simp only [hbl] at h
                  have hmmL : matchNodeName leftY leftP = true :=
                    ((Bool.and_eq_true _ _).mp hbl).2
                  cases hsl : slotNode leftP with
                  | none =>
                    simp only [hsl] at h
                    exact Option.noConfusion h
                  | some lp2 =>
                    simp only [hsl] at h
                    cases hrec : recur leftY lp2 meta with
                    | none =>
                      simp only [hrec] at h
                      exact Option.noConfusion h
                    | some trip =>
                      obtain ⟨y2, meta2, err2⟩ := trip
                      cases err2 with
                      | some e0 =>
                        exact absurd (matchNodeName_name_eq _ _ _ hmmL hsl)
                          (Hrec _ _ _ _ _ _ hrec)
                      | none =>
                        simp only [hrec] at h
                        exact ih _ _ _ _ _ _ _ _ _ _ _ _ _ h
                | false =>
                  simp only [hbl] at h
                  cases hbr : rightY.isXmlElement && matchNodeName rightY rightP with
                  | true =>
                    simp only [hbr] at h
                    have hmmR : matchNodeName rightY rightP = true :=
                      ((Bool.and_eq_true _ _).mp hbr).2
                    cases hsr : slotNode rightP with
                    | none =>
                      simp only [hsr] at h
                      exact Option.noConfusion h
                    | some rp2 =>
                      simp only [hsr] at h
                      cases hrec : recur rightY rp2 meta with
                      | none =>
                        simp only [hrec] at h
                        exact Option.noConfusion h
                      | some trip =>
                        obtain ⟨y2, meta2, err2⟩ := trip
                        cases err2 with
                        | some e0 =>
                          exact absurd (matchNodeName_name_eq _ _ _ hmmR hsr)
                            (Hrec _ _ _ _ _ _ hrec)
                        | none =>
                          simp only [hrec] at h
                          exact ih _ _ _ _ _ _ _ _ _ _ _ _ _ h
                  | false =>
                    simp only [hbr] at h
                    cases hgv : (visibleList live).get? left with
                    | none =>
                      simp only [hgv] at h
                      exact Option.noConfusion h
                    | some old =>
                      simp only [hgv] at h
                      cases hmk : mkType leftP (mappingDel meta old.idOf) with
                      | none =>
                        simp only [hmk] at h
                        exact Option.noConfusion h
                      | some r =>
                        simp only [hmk] at h
                        exact ih _ _ _ _ _ _ _ _ _ _ _ _ _ h
          case _ hnoslot =>
            cases hb : leftY.isXmlElement && matchNodeName leftY leftP &&
                (rightY.isXmlElement && matchNodeName rightY rightP) with
            | true =>
              simp only [hb] at h
              exact Option.noConfusion h
            | false =>
              simp only [hb] at h
              cases hbl : leftY.isXmlElement && matchNodeName leftY leftP with
              | true =>
                simp only [hbl] at h
                have hmmL : matchNodeName leftY leftP = true :=
                  ((Bool.and_eq_true _ _).mp hbl).2
                cases hsl : slotNode leftP with
                | none =>
                  simp only [hsl] at h
                  exact Option.noConfusion h
                | some lp2 =>
                  simp only [hsl] at h
                  cases hrec : recur leftY lp2 meta with
                  | none =>
                    simp only [hrec] at h
                    exact Option.noConfusion h
                  | some trip =>
                    obtain ⟨y2, meta2, err2⟩ := trip
                    cases err2 with
                    | some e0 =>
                      exact absurd (matchNodeName_name_eq _ _ _ hmmL hsl)
                        (Hrec _ _ _ _ _ _ hrec)
                    | none =>
                      simp only [hrec] at h
                      exact ih _ _ _ _ _ _ _ _ _ _ _ _ _ h
              | false =>
                simp only [hbl] at h
                cases hbr : rightY.isXmlElement && matchNodeName rightY rightP with
                | true =>
                  simp only [hbr] at h
                  have hmmR : matchNodeName rightY rightP = true :=
                    ((Bool.and_eq_true _ _).mp hbr).2
                  cases hsr : slotNode rightP with
                  | none =>
                    simp only [hsr] at h
                    exact Option.noConfusion h
                  | some rp2 =>
                    simp only [hsr] at h
                    cases hrec : recur rightY rp2 meta with
                    | none =>
                      simp only [hrec] at h
                      exact Option.noConfusion h
                    | some trip =>
                      obtain ⟨y2, meta2, err2⟩ := trip
                      cases err2 with
                      | some e0 =>
                        exact absurd (matchNodeName_name_eq _ _ _ hmmR hsr)
                          (Hrec _ _ _ _ _ _ hrec)
                      | none =>
                        simp only [hrec] at h
                        exact ih _ _ _ _ _ _ _ _ _ _ _ _ _ h
                | false =>
                  simp only [hbr] at h
                  cases hgv : (visibleList live).get? left with
                  | none =>
                    simp only [hgv] at h
                    exact Option.noConfusion h
                  | some old =>
                    simp only [hgv] at h
                    cases hmk : mkType leftP (mappingDel meta old.idOf) with
                    | none =>
                      simp only [hmk] at h
                      exact Option.noConfusion h
                    | some r =>
                      simp only [hmk] at h
                      exact ih _ _ _ _ _ _ _ _ _ _ _ _ _ h
      · exact Option.noConfusion h

theorem updateYFragment_err (ctx : Ctx) :
    ∀ (fuel : Nat) (y : YNode) (p : PNode) (meta : Meta) (y1 : YNode)
      (meta1 : Meta) (e : String),
    updateYFragment ctx fuel y p meta = some (y1, meta1, some e) →
    e = "node name mismatch!" ∧ y.isXmlElement = true ∧
      y.nodeNameOf ≠ p.typeName ∧ y1 = y ∧ meta1 = meta := by
  intro fuel
  induction fuel with
  | zero =>
    intro y p meta y1 meta1 e h
    simp only [updateYFragment] at h
    exact Option.noConfusion h
  | succ fuel ih =>
    intro y p meta y1 meta1 e h
    simp only [updateYFragment] at h
    cases y with
    | text a b c d =>
      exact Option.noConfusion h
    | elem isEl id client del nodeName yattrs childrenL =>
      cases hb : isEl && (nodeName != p.typeName) with
      | true =>
        simp only [hb, if_true] at h
        simp only [Option.some.injEq, Prod.mk.injEq] at h
        obtain ⟨hy, hm, he⟩ := h
        refine ⟨he.symm, ?_, ?_, hy.symm, hm.symm⟩
        · have h1 := ((Bool.and_eq_true _ _).mp hb).1
          simpa [YNode.isXmlElement] using h1
        · have hbne := ((Bool.and_eq_true _ _).mp hb).2
          simp only [YNode.nodeNameOf]
          intro hcontra
          rw [hcontra] at hbne
          simp at hbne
      | false =>
        simp only [hb, Bool.false_eq_true, if_false] at h
        split at h
        · exact Option.noConfusion h
        case _ lres heq1 =>
          split at h
          · exact Option.noConfusion h
          case _ rres heq2 =>
            split at h
            · exact Option.noConfusion h
            case _ live1x left1 right1 meta3 errx heqLoop =>
              split at h
              · exact absurd
                  (updateLoop_err_none ctx
                    (fun a b c => updateYFragment ctx fuel a b c) _ _ _
                    (fun yn pn m y2 m2 e1 hr => (ih yn pn m y2 m2 e1 hr).2.2.1)
                    _ _ _ _ _ _ _ _ _ _ _ _ _ _ heqLoop)
                  (by simp)
              · repeat' (split at h)
                all_goals
                  (first
                    | exact Option.noConfusion h
                    | (simp only [Option.some.injEq, Prod.mk.injEq] at h
                       exact Option.noConfusion h.2.2))

/-- Claim C9: atomicity of the fatal tag-name mismatch.  Whenever
updateYFragment reports the node name mismatch error, the mismatch was
detected by the top-level call on its own arguments: the given shared node
is an element whose tag name differs from the editable node's type name,
and the returned shared node and mapping metadata are exactly the inputs
(the error is raised before the mapping entry is set and before any
attribute or child mutation).  Recursive inner calls are made only on
children whose node names were checked to match, so they never raise the
error. -/
theorem C9_mismatch_atomicity (ctx : Ctx) (fuel : Nat) (y : YNode)
    (p : PNode) (meta : Meta) (y1 : YNode) (meta1 : Meta) (e : String)
    (h : updateYFragment ctx fuel y p meta = some (y1, meta1, some e)) :
    e = "node name mismatch!" ∧ y.isXmlElement = true ∧
      y.nodeNameOf ≠ p.typeName ∧ y1 = y ∧ meta1 = meta :=
  updateYFragment_err ctx fuel y p meta y1 meta1 e h

theorem C9_mismatch_atomicity_witness :
    "node name mismatch!" = "node name mismatch!" ∧
    (YNode.elem true 0 0 false "a" [] YList.nil).isXmlElement = true ∧
    (YNode.elem true 0 0 false "a" [] YList.nil).nodeNameOf ≠
      (PNode.node "b" [] [] PList.nil).typeName ∧
    YNode.elem true 0 0 false "a" [] YList.nil =
      YNode.elem true 0 0 false "a" [] YList.nil ∧
    Meta.mk [] [] 0 = Meta.mk [] [] 0 :=
  C9_mismatch_atomicity ctxSample 1
    (YNode.elem true 0 0 false "a" [] YList.nil)
    (PNode.node "b" [] [] PList.nil) (Meta.mk [] [] 0)
    (YNode.elem true 0 0 false "a" [] YList.nil) (Meta.mk [] [] 0)
    "node name mismatch!" (by decide)

theorem plist_toList_ofList : ∀ l : List PNode, (PList.ofList l).toList = l
  | [] => rfl
  | h :: t => by simp [PList.ofList, PList.toList, plist_toList_ofList t]

theorem plist_ofList_toList : ∀ l : PList, PList.ofList l.toList = l
  | .nil => rfl
  | .cons h t => by simp [PList.ofList, PList.toList, plist_ofList_toList t]

theorem ylist_toList_ofList : ∀ l : List YNode, (YList.ofList l).toList = l
  | [] => rfl
  | h :: t => by simp [YList.ofList, YList.toList, ylist_toList_ofList t]

theorem afields_toList_ofList : ∀ l : List (String × AVal),
    (AFields.ofList l).toList = l
  | [] => rfl
  | (k, v) :: t => by
    simp [AFields.ofList, AFields.toList, afields_toList_ofList t]

theorem stripMarkKey_append (s : String) :
    stripMarkKey (markPrefixStr ++ s) = s := by
  simp [stripMarkKey, markPrefixStr]

theorem markPrefix_append_inj {a b : String}
    (h : markPrefixStr ++ a = markPrefixStr ++ b) : a = b := by
  have h2 := congrArg String.data h
  simp [String.data_append] at h2
  exact String.ext h2

theorem visibleList_all_undeleted (l : List YNode)
    (h : ∀ c ∈ l, c.deletedOf = false) : visibleList l = l := by
  induction l with
  | nil => rfl
  | cons c rest ih =>
    have hc := h c (List.mem_cons_self c rest)
    have ht := ih (fun x hx => h x (List.mem_cons_of_mem c hx))
    simp only [visibleList, List.filter_cons, hc, Bool.not_false, if_true]
    exact congrArg (c :: .) ht

theorem objSet_fresh (m : List (String × AVal)) (k : String) (v : AVal)
    (h : ∀ kv ∈ m, kv.1 ≠ k) : objSet m k v = m ++ [(k, v)] := by
  simp only [objSet]
  rw [if_neg]
  simp only [List.any_eq_true, not_exists, not_and]
  intro kv hkv
  simp [h kv hkv]

theorem objGet_append_left (a b : List (String × AVal)) (k : String) (v : AVal)
    (h : objGet a k = some v) : objGet (a ++ b) k = some v := by
  simp only [objGet, List.find?_append] at h ⊢
  cases hf : a.find? (fun kv => kv.1 == k) with
  | none => rw [hf] at h; exact absurd h (by simp)
  | some x => rw [hf] at h; simp [Option.or] at h ⊢; exact h

theorem objGet_append_right (a b : List (String × AVal)) (k : String)
    (h : ∀ kv ∈ a, kv.1 ≠ k) : objGet (a ++ b) k = objGet b k := by
  simp only [objGet, List.find?_append]
  have hf : a.find? (fun kv => kv.1 == k) = none := by
    rw [List.find?_eq_none]
    intro kv hkv
    simp [h kv hkv]
  rw [hf]
  simp [Option.or]

theorem objGet_mem_key (a : List (String × AVal)) (k : String)
    (h : k ∈ a.map Prod.fst) : ∃ v, objGet a k = some v := by
  induction a with
  | nil => simp at h
  | cons kv rest ih =>
    simp only [List.map_cons, List.mem_cons] at h
    by_cases he : kv.1 = k
    · exact ⟨kv.2, by simp [objGet, List.find?_cons, he]⟩
    · obtain ⟨v, hv⟩ := ih (h.resolve_left (fun hh => he hh.symm))
      refine ⟨v, ?_⟩
      simp only [objGet, List.find?_cons] at hv ⊢
      have : (kv.1 == k) = false := by simp [he]
      rw [this] at *
      simpa using hv

theorem foldl_objSet_cond_append (cond : String × AVal → Bool) :
    ∀ (l acc : List (String × AVal)),
    (∀ kv ∈ l, cond kv = true) →
    (∀ kv ∈ l, ∀ kv2 ∈ acc, kv.1 ≠ kv2.1) →
    (l.map Prod.fst).Nodup →
    l.foldl (fun acc kv =>
      if cond kv then objSet acc kv.1 kv.2 else acc) acc = acc ++ l
  | [], acc, _, _, _ => by simp
  | kv :: rest, acc, hc, hfresh, hnd => by
    simp only [List.foldl_cons, hc kv (List.mem_cons_self kv rest), if_true]
    rw [objSet_fresh _ _ _ (fun kv2 hkv2 =>
      (hfresh kv (List.mem_cons_self kv rest) kv2 hkv2).symm)]
    rw [foldl_objSet_cond_append cond rest (acc ++ [(kv.1, kv.2)])
      (fun x hx => hc x (List.mem_cons_of_mem kv hx))
      (fun x hx kv2 hkv2 => by
        rcases List.mem_append.mp hkv2 with h2 | h2
        · exact hfresh x (List.mem_cons_of_mem kv hx) kv2 h2
        · simp only [List.mem_singleton] at h2
          subst h2
          simp only [List.map_cons, List.nodup_cons] at hnd
          intro hcontra
          exact hnd.1 (hcontra ▸ List.mem_map_of_mem Prod.fst hx))
      (by simp only [List.map_cons, List.nodup_cons] at hnd; exact hnd.2)]
    simp

theorem foldl_objSet_append :
    ∀ (l acc : List (String × AVal)),
    (∀ kv ∈ l, ∀ kv2 ∈ acc, kv.1 ≠ kv2.1) →
    (l.map Prod.fst).Nodup →
    l.foldl (fun acc kv => objSet acc kv.1 kv.2) acc = acc ++ l
  | [], acc, _, _ => by simp
  | kv :: rest, acc, hfresh, hnd => by
    simp only [List.foldl_cons]
    rw [objSet_fresh _ _ _ (fun kv2 hkv2 =>
      (hfresh kv (List.mem_cons_self kv rest) kv2 hkv2).symm)]
    rw [foldl_objSet_append rest (acc ++ [(kv.1, kv.2)])
      (fun x hx kv2 hkv2 => by
        rcases List.mem_append.mp hkv2 with h2 | h2
        · exact hfresh x (List.mem_cons_of_mem kv hx) kv2 h2
        · simp only [List.mem_singleton] at h2
          subst h2
          simp only [List.map_cons, List.nodup_cons] at hnd
          intro hcontra
          exact hnd.1 (hcontra ▸ List.mem_map_of_mem Prod.fst hx))
      (by simp only [List.map_cons, List.nodup_cons] at hnd; exact hnd.2)]
    simp

theorem isObjectA_toJSON (m : Mark) : isObjectA m.toJSON = true := by
  simp only [Mark.toJSON]
  split <;> rfl

theorem markAttrs_extract (m : Mark) :
    avalFields ((objGet (avalFields m.toJSON) "attrs").getD AVal.null) =
      m.attrs := by
  simp only [Mark.toJSON]
  split
  case isTrue he =>
    have hb : (("type" : String) == "attrs") = false := by decide
    simp only [avalFields, afields_toList_ofList, objGet, List.find?_cons,
      hb, List.find?_nil, Option.map_none', Option.getD_none]
    exact (List.isEmpty_iff.mp he).symm
  case isFalse he =>
    have h1 : (("type" : String) == "attrs") = false := by decide
    have h2 : (("attrs" : String) == "attrs") = true := by decide
    simp only [avalFields, afields_toList_ofList, objGet, List.find?_cons,
      h1, h2, Option.map_some', Option.getD_some]

theorem nodeMarksAttrsGo_canon : ∀ (ms : List Mark)
    (acc : List (String × AVal)),
    (∀ m ∈ ms, m.typeName ≠ "ychange") →
    (∀ m ∈ ms, ∀ kv ∈ acc, markPrefixStr ++ m.typeName ≠ kv.1) →
    (ms.map Mark.typeName).Nodup →
    nodeMarksAttrsGo ms acc = acc ++ nodeMarkAttrsCanon ms
  | [], acc, _, _, _ => by simp [nodeMarksAttrsGo, nodeMarkAttrsCanon]
  | m :: rest, acc, hy, hfresh, hnd => by
    have hyn : (m.typeName != "ychange") = true := by
      simp [hy m (List.mem_cons_self m rest)]
    simp only [nodeMarksAttrsGo, hyn, if_true]
    rw [objSet_fresh _ _ _ (fun kv2 hkv2 =>
      (hfresh m (List.mem_cons_self m rest) kv2 hkv2).symm)]
    rw [nodeMarksAttrsGo_canon rest (acc ++ [(markPrefixStr ++ m.typeName, m.toJSON)])
      (fun x hx => hy x (List.mem_cons_of_mem m hx))
      (fun x hx kv2 hkv2 => by
        rcases List.mem_append.mp hkv2 with h2 | h2
        · exact hfresh x (List.mem_cons_of_mem m hx) kv2 h2
        · simp only [List.mem_singleton] at h2
          subst h2
          simp only [List.map_cons, List.nodup_cons] at hnd
          intro hcontra
          have hxy := markPrefix_append_inj hcontra
          exact hnd.1 (hxy ▸ List.mem_map_of_mem Mark.typeName hx))
      (by simp only [List.map_cons, List.nodup_cons] at hnd; exact hnd.2)]
    simp [nodeMarkAttrsCanon]

theorem nodeMarksToAttributes_canon (ms : List Mark)
    (hy : ∀ m ∈ ms, m.typeName ≠ "ychange")
    (hnd : (ms.map Mark.typeName).Nodup) :
    nodeMarksToAttributes ms = nodeMarkAttrsCanon ms := by
  have := nodeMarksAttrsGo_canon ms [] hy (fun m _ kv hkv => absurd hkv
    (List.not_mem_nil kv)) hnd
  simpa [nodeMarksToAttributes] using this

theorem foldl_objSet_skipIf (cond : String × AVal → Bool) :
    ∀ (l acc : List (String × AVal)),
    (∀ kv ∈ l, cond kv = false) →
    (∀ kv ∈ l, ∀ kv2 ∈ acc, kv.1 ≠ kv2.1) →
    (l.map Prod.fst).Nodup →
    l.foldl (fun acc kv =>
      if cond kv then acc else objSet acc kv.1 kv.2) acc = acc ++ l
  | [], acc, _, _, _ => by simp
  | kv :: rest, acc, hc, hfresh, hnd => by
    simp only [List.foldl_cons, hc kv (List.mem_cons_self kv rest),
      Bool.false_eq_true, if_false]
    rw [objSet_fresh _ _ _ (fun kv2 hkv2 =>
      (hfresh kv (List.mem_cons_self kv rest) kv2 hkv2).symm)]
    rw [foldl_objSet_skipIf cond rest (acc ++ [(kv.1, kv.2)])
      (fun x hx => hc x (List.mem_cons_of_mem kv hx))
      (fun x hx kv2 hkv2 => by
        rcases List.mem_append.mp hkv2 with h2 | h2
        · exact hfresh x (List.mem_cons_of_mem kv hx) kv2 h2
        · simp only [List.mem_singleton] at h2
          subst h2
          simp only [List.map_cons, List.nodup_cons] at hnd
          intro hcontra
          exact hnd.1 (hcontra ▸ List.mem_map_of_mem Prod.fst hx))
      (by simp only [List.map_cons, List.nodup_cons] at hnd; exact hnd.2)]
    simp

theorem foldl_objSet_skipAll (cond : String × AVal → Bool) :
    ∀ (l acc : List (String × AVal)),
    (∀ kv ∈ l, cond kv = true) →
    l.foldl (fun acc kv =>
      if cond kv then acc else objSet acc kv.1 kv.2) acc = acc
  | [], acc, _ => rfl
  | kv :: rest, acc, hc => by
    simp only [List.foldl_cons, hc kv (List.mem_cons_self kv rest), if_true]
    exact foldl_objSet_skipAll cond rest acc
      (fun x hx => hc x (List.mem_cons_of_mem kv hx))

theorem decodeMarksFold_skip (ctx : Ctx) :
    ∀ (l : List (String × AVal)) (acc : Option (List Mark)),
    (∀ kv ∈ l, kv.1.startsWith markPrefixStr = false) →
    l.foldl (fun acc kv =>
      if kv.1.startsWith markPrefixStr then
        match acc with
        | none => none
        | some ms =>
          if isObjectA kv.2 then
            let markName := stripMarkKey kv.1
            match ctx.schemaMark markName with
            | none => none
            | some exc =>
              some (ms ++ [Mark.mk markName exc
                (avalFields ((objGet (avalFields kv.2) "attrs").getD AVal.null))])
          else some ms
      else acc) acc = acc
  | [], acc, _ => rfl
  | kv :: rest, acc, hc => by
    simp only [List.foldl_cons, hc kv (List.mem_cons_self kv rest),
      Bool.false_eq_true, if_false]
    exact decodeMarksFold_skip ctx rest acc
      (fun x hx => hc x (List.mem_cons_of_mem kv hx))

theorem decodeMarksFold_marks (ctx : Ctx) :
    ∀ (ms acc : List Mark),
    (∀ m ∈ ms, ctx.schemaMark m.typeName = some m.excludesSelf ∧
      (markPrefixStr ++ m.typeName).startsWith markPrefixStr = true) →
    (nodeMarkAttrsCanon ms).foldl (fun acc kv =>
      if kv.1.startsWith markPrefixStr then
        match acc with
        | none => none
        | some ms =>
          if isObjectA kv.2 then
            let markName := stripMarkKey kv.1
            match ctx.schemaMark markName with
            | none => none
            | some exc =>
              some (ms ++ [Mark.mk markName exc
                (avalFields ((objGet (avalFields kv.2) "attrs").getD AVal.null))])
          else some ms
      else acc) (some acc) = some (acc ++ ms)
  | [], acc, _ => by simp [nodeMarkAttrsCanon]
  | m :: rest, acc, hc => by
    have hm := hc m (List.mem_cons_self m rest)
    simp only [nodeMarkAttrsCanon, List.map_cons, List.foldl_cons, hm.2,
      if_true, isObjectA_toJSON, stripMarkKey_append, hm.1,
      markAttrs_extract]
    have hmk : Mark.mk m.typeName m.excludesSelf m.attrs = m := by
      cases m; rfl
    rw [hmk]
    have := decodeMarksFold_marks ctx rest (acc ++ [m])
      (fun x hx => hc x (List.mem_cons_of_mem m hx))
    simp only [nodeMarkAttrsCanon] at this
    rw [this]
    simp

theorem isOMarkLookup_canon (ctx : Ctx) (meta : Meta) (m : Mark)
    (hc : CacheOk ctx meta)
    (hs : ctx.schemaMark m.typeName = some m.excludesSelf) :
    ∃ meta2, isOMarkLookup meta m = (!m.excludesSelf, meta2) ∧
      CacheOk ctx meta2 ∧ meta2.mapping = meta.mapping ∧
      meta2.gen = meta.gen := by
  cases hf : meta.isOMark.find? (fun kv => kv.1 == m.typeName) with
  | none =>
    refine ⟨{ meta with isOMark :=
      meta.isOMark ++ [(m.typeName, !m.excludesSelf)] }, ?_, ?_, rfl, rfl⟩
    · simp [isOMarkLookup, hf]
    · intro p hp
      rcases List.mem_append.mp hp with h2 | h2
      · exact hc p h2
      · simp only [List.mem_singleton] at h2
        subst h2
        exact ⟨m.excludesSelf, hs, rfl⟩
  | some kv =>
    have hkey : kv.1 = m.typeName := by
      have := List.find?_some hf
      simpa using this
    obtain ⟨e, he, hbe⟩ := hc kv (List.mem_of_find?_eq_some hf)
    rw [hkey] at he
    rw [hs] at he
    have hee : e = m.excludesSelf := by
      injection he with h
      exact h.symm
    refine ⟨meta, ?_, hc, rfl, rfl⟩
    simp [isOMarkLookup, hf, hbe, hee]

theorem keyOfMark_nodup (ctx : Ctx) (ms : List Mark)
    (hdec : ∀ m ∈ ms, yattr2markname (keyOfMark ctx m) = m.typeName)
    (hnd : (ms.map Mark.typeName).Nodup) :
    (ms.map (keyOfMark ctx)).Nodup := by
  have heq : ms.map Mark.typeName =
      (ms.map (keyOfMark ctx)).map yattr2markname := by
    rw [List.map_map]
    exact (List.map_congr_left (fun m hm => (hdec m hm).symm))
  rw [heq] at hnd
  exact hnd.of_map

theorem marksToAttrsGo_canon (ctx : Ctx) :
    ∀ (ms : List Mark) (pattrs : List (String × AVal)) (meta : Meta),
    CacheOk ctx meta →
    (∀ m ∈ ms, m.typeName ≠ "ychange" ∧
      ctx.schemaMark m.typeName = some m.excludesSelf) →
    (∀ m ∈ ms, ∀ kv ∈ pattrs, keyOfMark ctx m ≠ kv.1) →
    (ms.map (keyOfMark ctx)).Nodup →
    ∃ meta2, marksToAttrsGo ctx ms pattrs meta =
        (pattrs ++ canonTextAttrs ctx ms, meta2) ∧
      CacheOk ctx meta2 ∧ meta2.mapping = meta.mapping ∧
      meta2.gen = meta.gen
  | [], pattrs, meta, hc, _, _, _ =>
    ⟨meta, by simp [marksToAttrsGo, canonTextAttrs], hc, rfl, rfl⟩
  | m :: rest, pattrs, meta, hc, hm, hfresh, hnd => by
    have hm0 := hm m (List.mem_cons_self m rest)
    obtain ⟨meta1, hlook, hc1, hmap1, hgen1⟩ :=
      isOMarkLookup_canon ctx meta m hc hm0.2
    have hyn : (m.typeName != "ychange") = true := by simp [hm0.1]
    have hkey : (if (!m.excludesSelf) = true then
        m.typeName ++ "--" ++ ctx.hashOfJSON m.toJSON else m.typeName) =
        keyOfMark ctx m := by
      cases he : m.excludesSelf <;> simp [keyOfMark, he]
    simp only [marksToAttrsGo, hyn, if_true, hlook]
    rw [hkey]
    rw [objSet_fresh _ _ _ (fun kv2 hkv2 =>
      (hfresh m (List.mem_cons_self m rest) kv2 hkv2).symm)]
    obtain ⟨meta2, hrec, hc2, hmap2, hgen2⟩ :=
      marksToAttrsGo_canon ctx rest
        (pattrs ++ [(keyOfMark ctx m, AVal.obj (AFields.ofList m.attrs))])
        meta1 hc1
        (fun x hx => hm x (List.mem_cons_of_mem m hx))
        (fun x hx kv2 hkv2 => by
          rcases List.mem_append.mp hkv2 with h2 | h2
          · exact hfresh x (List.mem_cons_of_mem m hx) kv2 h2
          · simp only [List.mem_singleton] at h2
            subst h2
            simp only [List.map_cons, List.nodup_cons] at hnd
            intro hcontra
            have hcontra2 : keyOfMark ctx x = keyOfMark ctx m := hcontra
            exact hnd.1 (hcontra2 ▸ List.mem_map_of_mem (keyOfMark ctx) hx))
        (by simp only [List.map_cons, List.nodup_cons] at hnd; exact hnd.2)
    refine ⟨meta2, ?_, hc2, hmap2.trans hmap1, hgen2.trans hgen1⟩
    rw [hrec]
    simp [canonTextAttrs]

theorem textDeltaGo_canon (ctx : Ctx) :
    ∀ (ts : List PNode) (meta : Meta),
    CacheOk ctx meta →
    (∀ n ∈ ts, TextMarksOk ctx n.marksList) →
    ∃ meta2, textDeltaGo ctx ts meta = (ts.map (spanOfTextNode ctx), meta2) ∧
      CacheOk ctx meta2 ∧ meta2.mapping = meta.mapping ∧
      meta2.gen = meta.gen
  | [], meta, hc, _ => ⟨meta, rfl, hc, rfl, rfl⟩
  | n :: rest, meta, hc, hts => by
    obtain ⟨hyc, hnd, hsm, hdec, _⟩ := hts n (List.mem_cons_self n rest)
    obtain ⟨meta1, hma, hc1, hmap1, hgen1⟩ :=
      marksToAttrsGo_canon ctx n.marksList [] meta hc
        (fun m hm => ⟨hyc m hm, hsm m hm⟩)
        (fun m _ kv hkv => absurd hkv (List.not_mem_nil kv))
        (keyOfMark_nodup ctx n.marksList hdec hnd)
    obtain ⟨meta2, hrec, hc2, hmap2, hgen2⟩ :=
      textDeltaGo_canon ctx rest meta1 hc1
        (fun x hx => hts x (List.mem_cons_of_mem n hx))
    refine ⟨meta2, ?_, hc2, hmap2.trans hmap1, hgen2.trans hgen1⟩
    simp only [textDeltaGo, marksToAttributes, hma, hrec]
    simp [spanOfTextNode]

theorem attrMapsDiffer_beq_false {a b : List (String × AVal)}
    (h : attrMapsDiffer a b) : (a == b) = false := by
  by_contra hcontra
  have heq : a = b := by
    have : (a == b) = true := by
      cases hab : a == b
      · exact absurd hab hcontra
      · rfl
    exact eq_of_beq this
  subst heq
  exact h ⟨fun kv hkv => hkv, fun kv hkv => hkv⟩

theorem isText_shape (n : PNode) (h : n.isText = true) :
    ∃ s ms, n = PNode.text s ms := by
  cases n with
  | text s ms => exact ⟨s, ms, rfl⟩
  | node a b c d => simp [PNode.isText] at h

theorem mergeSpansGo_nomerge :
    ∀ (rest : List Span) (cur : Span),
    List.Chain' (fun a b => attrMapsDiffer a.attributes b.attributes)
      (cur :: rest) →
    mergeSpansGo cur rest = cur :: rest
  | [], cur, _ => rfl
  | s :: rest2, cur, hch => by
    rw [List.chain'_cons] at hch
    simp only [mergeSpansGo, attrMapsDiffer_beq_false hch.1,
      Bool.false_eq_true, if_false]
    rw [mergeSpansGo_nomerge rest2 s hch.2]

theorem toDeltaSpans_nomerge (spans : List Span)
    (hch : List.Chain' (fun a b => attrMapsDiffer a.attributes b.attributes)
      spans) : toDeltaSpans spans = spans := by
  cases spans with
  | nil => rfl
  | cons s rest => exact mergeSpansGo_nomerge rest s hch

theorem chain_spans (ctx : Ctx) :
    ∀ (ts : List PNode), (∀ n ∈ ts, n.isText = true) →
    List.Chain' (textAdjDiffer ctx) ts →
    List.Chain' (fun a b => attrMapsDiffer a.attributes b.attributes)
      (ts.map (spanOfTextNode ctx))
  | [], _, _ => List.chain'_nil
  | [n], _, _ => by simp
  | n :: n2 :: rest, htext, hch => by
    rw [List.chain'_cons] at hch
    simp only [List.map_cons, List.chain'_cons]
    constructor
    · obtain ⟨s1, ms1, he1⟩ := isText_shape n
        (htext n (List.mem_cons_self n (n2 :: rest)))
      obtain ⟨s2, ms2, he2⟩ := isText_shape n2
        (htext n2 (List.mem_cons_of_mem n (List.mem_cons_self n2 rest)))
      subst he1; subst he2
      simpa [spanOfTextNode, textAdjDiffer, PNode.marksList] using hch.1
    · have := chain_spans ctx (n2 :: rest)
        (fun x hx => htext x (List.mem_cons_of_mem n hx)) hch.2
      simpa using this

theorem attributesToMarks_canon (ctx : Ctx) :
    ∀ (ms : List Mark),
    (∀ m ∈ ms, yattr2markname (keyOfMark ctx m) = m.typeName ∧
      ctx.schemaMark m.typeName = some m.excludesSelf) →
    attributesToMarks ctx (canonTextAttrs ctx ms) = some ms
  | [], _ => rfl
  | m :: rest, hms => by
    have hm := hms m (List.mem_cons_self m rest)
    simp only [canonTextAttrs, List.map_cons, attributesToMarks, hm.1, hm.2,
      avalFields, afields_toList_ofList]
    have hrec := attributesToMarks_canon ctx rest
      (fun x hx => hms x (List.mem_cons_of_mem m hx))
    simp only [canonTextAttrs] at hrec
    rw [hrec]
    have hmk : Mark.mk m.typeName m.excludesSelf m.attrs = m := by
      cases m; rfl
    simp [hmk]

theorem textNodesGo_canon (ctx : Ctx) :
    ∀ (ts : List PNode),
    (∀ n ∈ ts, n.isText = true ∧
      (∀ m ∈ n.marksList, yattr2markname (keyOfMark ctx m) = m.typeName ∧
        ctx.schemaMark m.typeName = some m.excludesSelf)) →
    textNodesGo ctx (ts.map (spanOfTextNode ctx)) = some ts
  | [], _ => rfl
  | n :: rest, hts => by
    have hn := hts n (List.mem_cons_self n rest)
    obtain ⟨s, ms, he⟩ := isText_shape n hn.1
    subst he
    simp only [List.map_cons, textNodesGo, spanOfTextNode, PNode.marksList,
      attributesToMarks_canon ctx ms (fun m hm => hn.2 m hm)]
    rw [textNodesGo_canon ctx rest (fun x hx => hts x (List.mem_cons_of_mem _ hx))]
    simp [PNode.textValue]

theorem find?_typeName_nodup :
    ∀ (ms : List Mark) (m : Mark), m ∈ ms →
    (ms.map Mark.typeName).Nodup →
    ms.find? (fun mark => mark.typeName == m.typeName) = some m
  | [], m, hm, _ => absurd hm (List.not_mem_nil m)
  | h :: rest, m, hm, hnd => by
    simp only [List.map_cons, List.nodup_cons] at hnd
    rcases List.mem_cons.mp hm with he | hmem
    · subst he
      simp [List.find?_cons]
    · have hne : (h.typeName == m.typeName) = false := by
        simp only [beq_eq_false_iff_ne, ne_eq]
        intro hcontra
        exact hnd.1 (hcontra ▸ List.mem_map_of_mem Mark.typeName hmem)
      simp only [List.find?_cons, hne]
      exact find?_typeName_nodup rest m hmem hnd.2

theorem eqKeysGo_agree
    (deep : List (String × AVal) → Option (List (String × AVal)) → Option Bool)
    (pattrs : List (String × AVal)) (yattrs : Option (List (String × AVal))) :
    ∀ (keys : List String),
    (∀ k ∈ keys, (yattrs.bind fun ys => objGet ys k) = objGet pattrs k) →
    eqKeysGo deep pattrs yattrs keys = some true
  | [], _ => rfl
  | key :: rest, hag => by
    have hk := hag key (List.mem_cons_self key rest)
    simp only [eqKeysGo, hk]
    have hrefl : jsStrictEq (objGet pattrs key) (objGet pattrs key) = true := by
      simp [jsStrictEq]
    by_cases hy : (key == "ychange") = true
    · simp only [hy, if_true]
      exact eqKeysGo_agree deep pattrs yattrs rest
        (fun k hk2 => hag k (List.mem_cons_of_mem key hk2))
    · simp only [Bool.not_eq_true] at hy
      simp only [hy, Bool.false_eq_true, if_false, hrefl, if_true]
      exact eqKeysGo_agree deep pattrs yattrs rest
        (fun k hk2 => hag k (List.mem_cons_of_mem key hk2))

theorem equalAttrs_agree (fuel : Nat) (pattrs yattrsList : List (String × AVal))
    (hlen : (pattrs.filter (fun kv => kv.2 != AVal.null)).length =
      (yattrsList.filter (fun kv =>
        kv.2 != AVal.null && !(kv.1.startsWith markPrefixStr))).length)
    (hag : ∀ k ∈ (pattrs.filter (fun kv => kv.2 != AVal.null)).map Prod.fst,
      objGet yattrsList k = objGet pattrs k) :
    equalAttrs (fuel + 1) pattrs (some yattrsList) = some true := by
  simp only [equalAttrs]
  have hlen2 : ((pattrs.filter (fun kv => kv.2 != AVal.null)).map
      Prod.fst).length = (yattrsList.filter (fun kv =>
        kv.2 != AVal.null && !(kv.1.startsWith markPrefixStr))).length := by
    rw [List.length_map, hlen]
  rw [hlen2]
  simp only [bne_self_eq_false, Bool.false_eq_true, if_false]
  exact eqKeysGo_agree (equalAttrs fuel) pattrs (some yattrsList) _
    (fun k hk => hag k hk)

theorem equalAttrs_self (fuel : Nat) (attrs : List (String × AVal))
    (hres : ∀ kv ∈ attrs, kv.1.startsWith markPrefixStr = true →
      kv.2 = AVal.null) :
    equalAttrs (fuel + 1) attrs (some attrs) = some true := by
  refine equalAttrs_agree fuel attrs attrs ?_ (fun k _ => rfl)
  congr 1
  apply List.filter_congr
  intro kv hkv
  cases hn : (kv.2 != AVal.null) with
  | false => rfl
  | true =>
    have : kv.1.startsWith markPrefixStr = false := by
      cases hsw : kv.1.startsWith markPrefixStr with
      | false => rfl
      | true =>
        have := hres kv hkv hsw
        rw [this] at hn
        simp at hn
    simp [this]

theorem eqTextAttrsGo_canon (ctx : Ctx) (fuel : Nat) (pmarks : List Mark) :
    ∀ (subms : List Mark),
    (∀ m ∈ subms,
      pmarks.find? (fun mark =>
        mark.typeName == yattr2markname (keyOfMark ctx m)) = some m ∧
      (∀ kv ∈ m.attrs, kv.1.startsWith markPrefixStr = true →
        kv.2 = AVal.null)) →
    eqTextAttrsGo (fuel + 1) pmarks (canonTextAttrs ctx subms) = some true
  | [], _ => rfl
  | m :: rest, hms => by
    have hm := hms m (List.mem_cons_self m rest)
    simp only [canonTextAttrs, List.map_cons, eqTextAttrsGo, hm.1,
      Option.map_some', avalFields, afields_toList_ofList]
    rw [equalAttrs_self fuel m.attrs hm.2]
    have hrec := eqTextAttrsGo_canon ctx fuel pmarks rest
      (fun x hx => hms x (List.mem_cons_of_mem m hx))
    simp only [canonTextAttrs] at hrec
    exact hrec

theorem eqTextSegsGo_canon (ctx : Ctx) (fuel : Nat) :
    ∀ (ts : List PNode),
    (∀ n ∈ ts, n.isText = true ∧ TextMarksOk ctx n.marksList) →
    eqTextSegsGo (fuel + 1) ((ts.map (spanOfTextNode ctx)).zip ts) = some true
  | [], _ => rfl
  | n :: rest, hts => by
    have hn := hts n (List.mem_cons_self n rest)
    obtain ⟨s, ms, he⟩ := isText_shape n hn.1
    obtain ⟨hyc, hnd, hsm, hdec, hnull⟩ := hn.2
    subst he
    simp only [PNode.marksList] at hyc hnd hsm hdec hnull
    simp only [List.map_cons, List.zip_cons_cons, eqTextSegsGo,
      spanOfTextNode, PNode.textValue, PNode.marksList, Option.getD_some]
    have h1 : (some s != some s) = false := by simp
    have h2 : ((canonTextAttrs ctx ms).length != ms.length) = false := by
      simp [canonTextAttrs]
    rw [h1]
    simp only [Bool.false_eq_true, if_false]
    rw [h2]
    simp only [Bool.false_eq_true, if_false]
    have hattrs := eqTextAttrsGo_canon ctx fuel ms ms (fun m hm =>
      ⟨by rw [hdec m hm]; exact find?_typeName_nodup ms m hm hnd,
       hnull m hm⟩)
    rw [hattrs]
    exact eqTextSegsGo_canon ctx fuel rest
      (fun x hx => hts x (List.mem_cons_of_mem _ hx))

theorem equalYTextPText_canon (ctx : Ctx) (fuel : Nat) (ts : List PNode)
    (htext : ∀ n ∈ ts, n.isText = true ∧ TextMarksOk ctx n.marksList)
    (hch : List.Chain' (textAdjDiffer ctx) ts) :
    equalYTextPText (fuel + 1) (ts.map (spanOfTextNode ctx)) ts = some true := by
  simp only [equalYTextPText]
  rw [toDeltaSpans_nomerge _ (chain_spans ctx ts (fun n hn => (htext n hn).1) hch)]
  have hlen : ((ts.map (spanOfTextNode ctx)).length != ts.length) = false := by
    simp
  rw [hlen]
  simp only [Bool.false_eq_true, if_false]
  exact eqTextSegsGo_canon ctx fuel ts htext

theorem WFP_text_inv (ctx : Ctx) (s : String) (ms : List Mark)
    (h : WFP ctx (.text s ms)) : TextMarksOk ctx ms := by
  cases h with
  | text a b c d => exact d

theorem textSlot_built (ctx : Ctx) (fuel : Nat) (ts : List PNode) (meta : Meta)
    (hcache : CacheOk ctx meta) (hwf : SlotWF ctx (.texts ts)) :
    ∃ c meta2, createTypeFromTextNodes ctx ts meta = (c, meta2) ∧
      SlotBuilt ctx fuel meta.gen meta2.gen (.texts ts) c ∧
      CacheOk ctx meta2 ∧ meta2.gen = meta.gen + 1 := by
  obtain ⟨hne, hall, hch⟩ := hwf
  have htm : ∀ n ∈ ts, n.isText = true ∧ TextMarksOk ctx n.marksList := by
    intro n hn
    obtain ⟨ht, hwfp⟩ := hall n hn
    obtain ⟨s, ms, he⟩ := isText_shape n ht
    subst he
    exact ⟨rfl, WFP_text_inv ctx s ms hwfp⟩
  have hcache2 : CacheOk ctx { meta with gen := meta.gen + 1 } := hcache
  obtain ⟨metaD, hdelta, hcD, hmapD, hgenD⟩ :=
    textDeltaGo_canon ctx ts { meta with gen := meta.gen + 1 } hcache2
      (fun n hn => (htm n hn).2)
  refine ⟨YNode.text meta.gen ctx.clientID false (ts.map (spanOfTextNode ctx)),
    mappingSet metaD meta.gen (.texts ts), ?_, ?_, hcD, hgenD⟩
  · simp only [createTypeFromTextNodes, hdelta]
  · refine ⟨meta.gen, ts.map (spanOfTextNode ctx), rfl, ?_, ?_⟩
    · simp only [createTextNodesFromYText]
      rw [toDeltaSpans_nomerge _
        (chain_spans ctx ts (fun n hn => (htm n hn).1) hch)]
      exact textNodesGo_canon ctx ts (fun n hn =>
        ⟨(htm n hn).1, fun m hm =>
          ⟨((htm n hn).2).2.2.2.1 m hm, ((htm n hn).2).2.2.1 m hm⟩⟩)
    · have hbridge : equalYTypePNode (fuel + 2)
          (YNode.text meta.gen ctx.clientID false
            (ts.map (spanOfTextNode ctx))) (PSlot.texts ts) =
          equalYTextPText (fuel + 1) (ts.map (spanOfTextNode ctx)) ts := rfl
      rw [hbridge]
      exact equalYTextPText_canon ctx fuel ts htm hch

theorem SlotsBuilt_length (ctx : Ctx) (fuel : Nat) :
    ∀ (slots : List PSlot) (cs : List YNode) (g g2 : Nat),
    SlotsBuilt ctx fuel g g2 slots cs → slots.length = cs.length
  | [], [], _, _, _ => rfl
  | [], _ :: _, g, g2, h => absurd h (by simp [SlotsBuilt])
  | _ :: _, [], g, g2, h => absurd h (by simp [SlotsBuilt])
  | s :: ss, c :: cs, g, g2, h => by
    obtain ⟨gm, _, _, _, hrest⟩ := h
    simp [SlotsBuilt_length ctx fuel ss cs gm g2 hrest]

theorem SlotsBuilt_undeleted (ctx : Ctx) (fuel : Nat) :
    ∀ (slots : List PSlot) (cs : List YNode) (g g2 : Nat),
    SlotsBuilt ctx fuel g g2 slots cs → ∀ c ∈ cs, c.deletedOf = false
  | [], [], _, _, _ => by simp
  | [], _ :: _, g, g2, h => absurd h (by simp [SlotsBuilt])
  | _ :: _, [], g, g2, h => absurd h (by simp [SlotsBuilt])
  | s :: ss, c :: cs, g, g2, h => by
    obtain ⟨gm, _, _, hsb, hrest⟩ := h
    intro x hx
    rcases List.mem_cons.mp hx with he | hmem
    · subst he
      cases s with
      | one n =>
        obtain ⟨⟨eid, ecl, nm, at2, ch, hshape⟩, _, _, _, _⟩ := hsb
        subst hshape
        rfl
      | texts ts =>
        obtain ⟨tid, spans, hshape, _, _⟩ := hsb
        subst hshape
        rfl
    · exact SlotsBuilt_undeleted ctx fuel ss cs gm g2 hrest x hmem

theorem SlotsBuilt_eqChildren (ctx : Ctx) (fuel : Nat) :
    ∀ (slots : List PSlot) (cs : List YNode) (g g2 : Nat),
    SlotsBuilt ctx fuel g g2 slots cs →
    eqChildrenGo (equalYTypePNode (fuel + 2)) (cs.zip slots) = some true
  | [], [], _, _, _ => rfl
  | [], _ :: _, g, g2, h => absurd h (by simp [SlotsBuilt])
  | _ :: _, [], g, g2, h => absurd h (by simp [SlotsBuilt])
  | s :: ss, c :: cs, g, g2, h => by
    obtain ⟨gm, _, _, hsb, hrest⟩ := h
    have heq : equalYTypePNode (fuel + 2) c s = some true := by
      cases s with
      | one n => exact hsb.2.2.2.2
      | texts ts =>
        obtain ⟨tid, spans, hshape, _, heq2⟩ := hsb
        exact heq2
    simp only [List.zip_cons_cons, eqChildrenGo, heq]
    exact SlotsBuilt_eqChildren ctx fuel ss cs gm g2 hrest

theorem buildChildren_rebuild (ctx : Ctx) (fuel : Nat) :
    ∀ (slots : List PSlot) (cs : List YNode) (g g2 : Nat) (meta3 : Meta),
    SlotsBuilt ctx fuel g g2 slots cs → noTwoTexts slots →
    (∀ k, g ≤ k → k < g2 → mappingGet meta3 k = none) →
    ∃ meta4,
      buildChildrenGo ctx
        (fun c m =>
          match mappingGet m c.idOf with
          | some (MapVal.single n) => some (c, some n, m)
          | some (MapVal.texts _) => some (c, none, m)
          | none => createNodeFromYElement ctx fuel c m)
        cs.length (cs.map (fun c => (!c.deletedOf, c))) meta3 =
        some (cs, flattenSlots slots, meta4) ∧
      ∀ k, k < g ∨ g2 ≤ k → mappingGet meta4 k = mappingGet meta3 k
  | [], [], g, g2, meta3, _, _, _ => ⟨meta3, rfl, fun k _ => rfl⟩
  | [], c :: cs, g, g2, meta3, h, _, _ => absurd h (by simp [SlotsBuilt])
  | s :: ss, [], g, g2, meta3, h, _, _ => absurd h (by simp [SlotsBuilt])
  | PSlot.one n :: ss, c :: cs, g, g2, meta3, h, hnt, hnone => by
    obtain ⟨gm, hggm, hgmg2, hsb, hrest⟩ := h
    obtain ⟨⟨eid, ecl, nm, at2, ch, hshape⟩, hidlo, hidhi, hreb, _⟩ := hsb
    subst hshape
    simp only [YNode.idOf] at hidlo hidhi
    obtain ⟨meta4c, hbuild, hframec⟩ := hreb meta3
      (fun k hk1 hk2 => hnone k hk1 (lt_of_lt_of_le hk2 hgmg2))
    obtain ⟨meta4, hrec, hframe⟩ := buildChildren_rebuild ctx fuel ss cs gm g2
      meta4c hrest hnt
      (fun k hk1 hk2 => by
        rw [hframec k (Or.inr hk1)]
        exact hnone k (le_trans hggm hk1) hk2)
    refine ⟨meta4, ?_, ?_⟩
    · have hmgnone : mappingGet meta3 eid = none :=
        hnone eid hidlo (lt_of_lt_of_le hidhi hgmg2)
      have hdel : (YNode.elem true eid ecl false nm at2 ch).deletedOf =
        false := rfl
      have hidof : (YNode.elem true eid ecl false nm at2 ch).idOf = eid := rfl
      simp only [List.map_cons, List.length_cons, buildChildrenGo, hdel,
        Bool.not_false, Bool.not_true, Bool.false_eq_true, if_false, hidof,
        hmgnone, hbuild, hrec, Option.map_some']
      simp [flattenSlots]
    · intro k hk
      rw [hframe k (hk.imp (fun h1 => lt_of_lt_of_le h1 hggm) id)]
      exact hframec k (hk.imp id (fun h1 => le_trans hgmg2 h1))
  | PSlot.texts ts :: ss, c :: cs, g, g2, meta3, h, hnt, hnone => by
    obtain ⟨gm, hggm, hgmg2, hsb, hrest⟩ := h
    obtain ⟨tid, spans, hshape, htns, _⟩ := hsb
    subst hshape
    have hspansOf : (YNode.text tid ctx.clientID false spans).spansOf =
      spans := rfl
    have hdelT : (YNode.text tid ctx.clientID false spans).deletedOf =
      false := rfl
    cases cs with
    | nil =>
      cases ss with
      | cons s2 ss2 => exact absurd hrest (by simp [SlotsBuilt])
      | nil =>
        refine ⟨meta3, ?_, fun k _ => rfl⟩
        simp only [List.map_cons, List.map_nil, List.length_cons,
          List.length_nil, buildChildrenGo, hdelT, Bool.not_false,
          Bool.not_true, Bool.false_eq_true, if_false, hspansOf, htns]
        simp [flattenSlots, buildChildrenGo]
    | cons c2 cs2 =>
      cases ss with
      | nil => exact absurd hrest (by simp [SlotsBuilt])
      | cons s2 ss2 =>
        cases s2 with
        | texts ts2 => exact False.elim hnt
        | one n2 =>
          obtain ⟨gm2, hgm2a, hgm2b, hsb2, hrest2⟩ := hrest
          obtain ⟨eid, ecl, nm, at2, ch, hshape2⟩ := hsb2.1
          subst hshape2
          obtain ⟨meta4, hrec, hframe⟩ := buildChildren_rebuild ctx fuel
            (PSlot.one n2 :: ss2)
            (YNode.elem true eid ecl false nm at2 ch :: cs2)
            gm g2 meta3 ⟨gm2, hgm2a, hgm2b, hsb2, hrest2⟩ hnt
            (fun k hk1 hk2 => hnone k (le_trans hggm hk1) hk2)
          refine ⟨meta4, ?_, ?_⟩
          · simp only [List.map_cons, List.length_cons]
            rw [buildChildrenGo]
            simp only [hdelT, Bool.not_false, Bool.not_true,
              Bool.false_eq_true, if_false, hspansOf, htns]
            simp only [List.map_cons, List.length_cons] at hrec
            rw [hrec]
            simp [flattenSlots]
            intro nvisit nid nclient nspans rest2 hcontra
            injection hcontra with h1 h2
            injection h1 with ha hb
            exact YNode.noConfusion hb
          · intro k hk
            exact hframe k (hk.imp (fun h1 => lt_of_lt_of_le h1 hggm) id)

theorem flattenSlots_append (a b : List PSlot) :
    flattenSlots (a ++ b) = flattenSlots a ++ flattenSlots b := by
  induction a with
  | nil => rfl
  | cons s rest ih =>
    cases s with
    | one n => simp [flattenSlots, ih]
    | texts ts => simp [flattenSlots, ih]

theorem flatten_normGo : ∀ (l acc : List PNode),
    flattenSlots (normGo acc l) = acc.reverse ++ l
  | [], acc => by
    simp only [normGo]
    cases ha : acc.isEmpty with
    | true =>
      simp only [if_true]
      rw [List.isEmpty_iff.mp ha]
      rfl
    | false =>
      simp only [Bool.false_eq_true, if_false]
      simp [flattenSlots]
  | n :: rest, acc => by
    simp only [normGo]
    cases hn : n.isText with
    | true =>
      simp only [if_true]
      rw [flatten_normGo rest (n :: acc)]
      simp
    | false =>
      simp only [Bool.false_eq_true, if_false]
      rw [flattenSlots_append]
      cases ha : acc.isEmpty with
      | true =>
        simp only [if_true]
        rw [List.isEmpty_iff.mp ha]
        simp only [flattenSlots, List.reverse_nil, List.nil_append]
        rw [flatten_normGo rest []]
        simp
      | false =>
        simp only [Bool.false_eq_true, if_false]
        simp only [flattenSlots, List.append_nil]
        rw [flatten_normGo rest []]
        simp

theorem noTwoTexts_cons_one (n : PNode) (ss : List PSlot)
    (h : noTwoTexts ss) : noTwoTexts (PSlot.one n :: ss) := by
  cases ss with
  | nil => trivial
  | cons s2 ss2 =>
    cases s2 with
    | one m => exact h
    | texts ts => exact h

theorem noTwoTexts_normGo : ∀ (l acc : List PNode),
    noTwoTexts (normGo acc l)
  | [], acc => by
    simp only [normGo]
    cases ha : acc.isEmpty with
    | true => simp only [if_true]; trivial
    | false => simp only [Bool.false_eq_true, if_false]; trivial
  | n :: rest, acc => by
    simp only [normGo]
    cases hn : n.isText with
    | true =>
      simp only [if_true]
      exact noTwoTexts_normGo rest (n :: acc)
    | false =>
      simp only [Bool.false_eq_true, if_false]
      have htail : noTwoTexts (PSlot.one n :: normGo [] rest) :=
        noTwoTexts_cons_one n _ (noTwoTexts_normGo rest [])
      cases ha : acc.isEmpty with
      | true => simp only [if_true]; simpa using htail
      | false =>
        simp only [Bool.false_eq_true, if_false]
        simpa using htail

theorem WFPL_facts (ctx : Ctx) : ∀ (content : PList), WFPL ctx content →
    (∀ n ∈ content.toList, WFP ctx n) ∧
    List.Chain' (textAdjDiffer ctx) content.toList
  | .nil, _ => ⟨by simp [PList.toList], by simp [PList.toList]⟩
  | .cons h t, hw => by
    cases hw with
    | cons h2 t2 hwh hadj hwt =>
      obtain ⟨hall, hch⟩ := WFPL_facts ctx t hwt
      refine ⟨?_, ?_⟩
      · intro n hn
        rcases List.mem_cons.mp hn with he | hmem
        · subst he; exact hwh
        · exact hall n hmem
      · simp only [PList.toList]
        rw [List.chain'_cons']
        refine ⟨?_, hch⟩
        intro y hy
        cases t with
        | nil => simp [PList.toList] at hy
        | cons y2 t2 =>
          simp only [PList.toList, List.head?_cons, Option.mem_def,
            Option.some.injEq] at hy
          cases hy
          cases h with
          | text s ms =>
            cases y with
            | text s2 ms2 => exact hadj
            | node a b c d => exact trivial
          | node a b c d => exact trivial

theorem slotWF_normGo (ctx : Ctx) : ∀ (l acc : List PNode),
    (∀ n ∈ l, WFP ctx n) →
    (∀ n ∈ acc, n.isText = true ∧ WFP ctx n) →
    List.Chain' (textAdjDiffer ctx) (acc.reverse ++ l) →
    ∀ s ∈ normGo acc l, SlotWF ctx s
  | [], acc, _, hacc, hch, s, hs => by
    simp only [normGo] at hs
    cases ha : acc.isEmpty with
    | true => rw [ha] at hs; simp at hs
    | false =>
      rw [ha] at hs
      simp only [Bool.false_eq_true, if_false, List.mem_singleton] at hs
      subst hs
      refine ⟨?_, ?_, ?_⟩
      · simp only [ne_eq, List.reverse_eq_nil_iff]
        exact fun hc => by rw [hc] at ha; simp at ha
      · intro n hn
        exact hacc n (List.mem_reverse.mp hn)
      · simpa using hch
  | n :: rest, acc, hl, hacc, hch, s, hs => by
    simp only [normGo] at hs
    cases hn : n.isText with
    | true =>
      rw [hn] at hs
      simp only [if_true] at hs
      refine slotWF_normGo ctx rest (n :: acc)
        (fun x hx => hl x (List.mem_cons_of_mem n hx))
        (fun x hx => by
          rcases List.mem_cons.mp hx with he | hmem
          · subst he; exact ⟨hn, hl _ (List.mem_cons_self _ rest)⟩
          · exact hacc x hmem)
        (by simpa using hch) s hs
    | false =>
      rw [hn] at hs
      simp only [Bool.false_eq_true, if_false, List.mem_append,
        List.mem_cons] at hs
      rcases hs with hs | hs | hs
      · have hane : acc.isEmpty = false := by
          cases ha : acc.isEmpty with
          | false => rfl
          | true => rw [ha] at hs; simp at hs
        rw [hane] at hs
        simp only [Bool.false_eq_true, if_false, List.mem_singleton] at hs
        subst hs
        refine ⟨?_, ?_, ?_⟩
        · simp only [ne_eq, List.reverse_eq_nil_iff]
          exact fun hc => by rw [hc] at hane; simp at hane
        · intro x hx
          exact hacc x (List.mem_reverse.mp hx)
        · exact (List.chain'_append.mp hch).1
      · subst hs
        exact ⟨hl n (List.mem_cons_self n rest), hn⟩
      · refine slotWF_normGo ctx rest []
          (fun x hx => hl x (List.mem_cons_of_mem n hx))
          (fun x hx => absurd hx (List.not_mem_nil x))
          ?_ s hs
        have hright := (List.chain'_append.mp hch).2.1
        simpa using hright.tail

theorem find?_map_replace (i k : Nat) (v : MapVal) (h : k ≠ i) :
    ∀ (l : List (Nat × MapVal)),
    ((l.map (fun kv => if kv.1 == i then (i, v) else kv)).find?
      (fun kv => kv.1 == k)).map Prod.snd =
    (l.find? (fun kv => kv.1 == k)).map Prod.snd
  | [] => rfl
  | kv :: rest => by
    by_cases he : kv.1 = i
    · have hb : (kv.1 == i) = true := by simp [he]
      have hik : ((i : Nat) == k) = false := by simp [Ne.symm h]
      have hkk : (kv.1 == k) = false := by simp [he, Ne.symm h]
      simp only [List.map_cons, hb, if_true, List.find?_cons, hik, hkk]
      exact find?_map_replace i k v h rest
    · have hb : (kv.1 == i) = false := by simp [he]
      simp only [List.map_cons, hb, Bool.false_eq_true, if_false,
        List.find?_cons]
      cases hkk : (kv.1 == k) with
      | true => rfl
      | false => exact find?_map_replace i k v h rest

theorem mappingGet_set_ne (m : Meta) (i k : Nat) (v : MapVal) (h : k ≠ i) :
    mappingGet (mappingSet m i v) k = mappingGet m k := by
  simp only [mappingGet, mappingSet]
  cases ha : m.mapping.any (fun kv => kv.1 == i) with
  | true =>
    simp only [if_true]
    exact find?_map_replace i k v h m.mapping
  | false =>
    simp only [Bool.false_eq_true, if_false, List.find?_append]
    have hf2 : ([(i, v)].find? (fun kv => kv.1 == k)) = none := by
      simp [List.find?_cons, Ne.symm h]
    rw [hf2]
    cases List.find? (fun kv => kv.1 == k) m.mapping <;> rfl

theorem equalYTypePNode_node (ctx : Ctx) (fuel : Nat) (id client : Nat)
    (name : String) (attrs : List (String × AVal)) (marks : List Mark)
    (content : PList) (cs : List YNode) (g g2 : Nat)
    (hattrs : NodeAttrsOk attrs) (hmarks : NodeMarksOk ctx marks)
    (hsb : SlotsBuilt ctx fuel g g2
      (normalizePNodeContent (PNode.node name attrs marks content)) cs) :
    equalYTypePNode (fuel + 3)
      (YNode.elem true id client false name
        (attrs ++ nodeMarkAttrsCanon marks) (YList.ofList cs))
      (.one (PNode.node name attrs marks content)) = some true := by
  have hunf : equalYTypePNode (fuel + 3)
      (YNode.elem true id client false name
        (attrs ++ nodeMarkAttrsCanon marks) (YList.ofList cs))
      (.one (PNode.node name attrs marks content)) =
      (if (YNode.elem true id client false name
          (attrs ++ nodeMarkAttrsCanon marks) (YList.ofList cs)).isXmlElement &&
          matchNodeName (YNode.elem true id client false name
            (attrs ++ nodeMarkAttrsCanon marks) (YList.ofList cs))
            (.one (PNode.node name attrs marks content)) then
        (let normalized :=
          normalizePNodeContent (PNode.node name attrs marks content)
         let vis := visibleList (YNode.elem true id client false name
           (attrs ++ nodeMarkAttrsCanon marks) (YList.ofList cs)).childrenOf
         if vis.length != normalized.length then some false
         else
           match equalAttrs (fuel + 2)
               (PNode.node name attrs marks content).attrsList
               (some (YNode.elem true id client false name
                 (attrs ++ nodeMarkAttrsCanon marks)
                 (YList.ofList cs)).attrsOf) with
           | none => none
           | some false => some false
           | some true =>
             if !(equalMarks (PNode.node name attrs marks content).marksList
                 (YNode.elem true id client false name
                   (attrs ++ nodeMarkAttrsCanon marks)
                   (YList.ofList cs)).attrsOf) then some false
             else eqChildrenGo (equalYTypePNode (fuel + 2))
               (vis.zip normalized))
       else some false) := rfl
  rw [hunf]
  have hcond : ((YNode.elem true id client false name
      (attrs ++ nodeMarkAttrsCanon marks) (YList.ofList cs)).isXmlElement &&
      matchNodeName (YNode.elem true id client false name
        (attrs ++ nodeMarkAttrsCanon marks) (YList.ofList cs))
        (.one (PNode.node name attrs marks content))) = true := by
    simp [YNode.isXmlElement, matchNodeName, PNode.typeName]
  rw [hcond]
  simp only [if_true]
  have hchildren : (YNode.elem true id client false name
      (attrs ++ nodeMarkAttrsCanon marks) (YList.ofList cs)).childrenOf =
      cs := by
    simp [YNode.childrenOf, ylist_toList_ofList]
  have hvis : visibleList cs = cs :=
    visibleList_all_undeleted cs (SlotsBuilt_undeleted ctx fuel _ cs g g2 hsb)
  have hlen : cs.length = (normalizePNodeContent
      (PNode.node name attrs marks content)).length :=
    (SlotsBuilt_length ctx fuel _ cs g g2 hsb).symm
  simp only [hchildren, hvis, hlen, bne_self_eq_false, Bool.false_eq_true,
    if_false]
  have hattrsOf : (YNode.elem true id client false name
      (attrs ++ nodeMarkAttrsCanon marks) (YList.ofList cs)).attrsOf =
      attrs ++ nodeMarkAttrsCanon marks := rfl
  have hattrsList : (PNode.node name attrs marks content).attrsList =
      attrs := rfl
  have hmarksList : (PNode.node name attrs marks content).marksList =
      marks := rfl
  have hswTrue : ∀ kv ∈ nodeMarkAttrsCanon marks,
      kv.1.startsWith markPrefixStr = true := by
    intro kv hkv
    obtain ⟨m, hm, hkv2⟩ := List.mem_map.mp hkv
    rw [← hkv2]
    exact ((hmarks.1 m hm).2.2 : _)
  have hea : equalAttrs (fuel + 2) attrs
      (some (attrs ++ nodeMarkAttrsCanon marks)) = some true := by
    have hfl : attrs.filter (fun kv => kv.2 != AVal.null) = attrs := by
      apply List.filter_eq_self.mpr
      intro kv hkv
      simp [(hattrs.1 kv hkv).1]
    refine equalAttrs_agree (fuel + 1) attrs (attrs ++ nodeMarkAttrsCanon marks)
      ?_ ?_
    · rw [List.filter_append, hfl]
      have h1 : attrs.filter (fun kv =>
          kv.2 != AVal.null && !(kv.1.startsWith markPrefixStr)) = attrs := by
        apply List.filter_eq_self.mpr
        intro kv hkv
        simp [(hattrs.1 kv hkv).1, (hattrs.1 kv hkv).2.2]
      have h2 : (nodeMarkAttrsCanon marks).filter (fun kv =>
          kv.2 != AVal.null && !(kv.1.startsWith markPrefixStr)) = [] := by
        apply List.filter_eq_nil_iff.mpr
        intro kv hkv
        simp [hswTrue kv hkv]
      rw [h1, h2]
      simp
    · intro k hk
      rw [hfl] at hk
      obtain ⟨v, hv⟩ := objGet_mem_key attrs k hk
      rw [hv]
      exact objGet_append_left attrs _ k v hv
  rw [hattrsList, hattrsOf, hea]
  have hem : equalMarks marks (attrs ++ nodeMarkAttrsCanon marks) = true := by
    simp only [equalMarks]
    have h1 : attrs.filter (fun kv => kv.1.startsWith markPrefixStr) = [] := by
      apply List.filter_eq_nil_iff.mpr
      intro kv hkv
      simp [(hattrs.1 kv hkv).2.2]
    have h2 : (nodeMarkAttrsCanon marks).filter (fun kv =>
        kv.1.startsWith markPrefixStr) = nodeMarkAttrsCanon marks := by
      apply List.filter_eq_self.mpr
      intro kv hkv
      simp [hswTrue kv hkv]
    rw [List.filter_append, h1, h2]
    have hlen2 : ((nodeMarkAttrsCanon marks).map Prod.fst).length =
        marks.length := by
      simp [nodeMarkAttrsCanon]
    simp only [List.nil_append, hlen2, bne_self_eq_false, Bool.false_eq_true,
      if_false]
    rw [nodeMarksToAttributes_canon marks (fun m hm => (hmarks.1 m hm).1)
      hmarks.2]
    apply List.all_eq_true.mpr
    intro key hkey
    obtain ⟨kv, hkv, hkey2⟩ := List.mem_map.mp hkey
    subst hkey2
    have hog : objGet (attrs ++ nodeMarkAttrsCanon marks) kv.1 =
        objGet (nodeMarkAttrsCanon marks) kv.1 := by
      apply objGet_append_right
      intro kv2 hkv2
      intro hcontra
      have hsw1 := (hattrs.1 kv2 hkv2).2.2
      have hsw2 := hswTrue kv hkv
      rw [hcontra] at hsw1
      rw [hsw1] at hsw2
      exact Bool.noConfusion hsw2
    rw [hog]
    simp
  rw [hmarksList, hem]
  simp only [Bool.not_true, Bool.false_eq_true, if_false]
  exact SlotsBuilt_eqChildren ctx fuel _ cs g g2 hsb

theorem buildTypesGo_built (ctx : Ctx) (fuel : Nat)
    (HP : ∀ T meta yt meta2, WFP ctx T → T.isText = false →
      CacheOk ctx meta →
      createTypeFromElementNode ctx fuel T meta = some (yt, meta2) →
      meta.gen ≤ meta2.gen ∧ CacheOk ctx meta2 ∧
      SlotBuilt ctx fuel meta.gen meta2.gen (.one T) yt) :
    ∀ (slots : List PSlot) (meta : Meta) (cs : List YNode) (meta2 : Meta),
    CacheOk ctx meta →
    (∀ s ∈ slots, SlotWF ctx s) →
    buildTypesGo (fun slot m =>
      match slot with
      | PSlot.texts ts => some (createTypeFromTextNodes ctx ts m)
      | PSlot.one n => createTypeFromElementNode ctx fuel n m) slots meta =
      some (cs, meta2) →
    meta.gen ≤ meta2.gen ∧ CacheOk ctx meta2 ∧
    SlotsBuilt ctx fuel meta.gen meta2.gen slots cs
  | [], meta, cs, meta2, hcache, _, hbt => by
    simp only [buildTypesGo, Option.some.injEq, Prod.mk.injEq] at hbt
    obtain ⟨h1, h2⟩ := hbt
    subst h1; subst h2
    exact ⟨le_refl _, hcache, le_refl _⟩
  | PSlot.one n :: rest, meta, cs, meta2, hcache, hwf, hbt => by
    simp only [buildTypesGo] at hbt
    cases hcb : createTypeFromElementNode ctx fuel n meta with
    | none => rw [hcb] at hbt; exact absurd hbt (by simp)
    | some r =>
      obtain ⟨c, metam⟩ := r
      rw [hcb] at hbt
      simp only [] at hbt
      cases hrec : buildTypesGo (fun slot m =>
          match slot with
          | PSlot.texts ts => some (createTypeFromTextNodes ctx ts m)
          | PSlot.one n => createTypeFromElementNode ctx fuel n m) rest
          metam with
      | none => rw [hrec] at hbt; exact absurd hbt (by simp)
      | some q =>
        obtain ⟨cs2, metaF⟩ := q
        rw [hrec] at hbt
        simp only [Option.map_some', Option.some.injEq, Prod.mk.injEq] at hbt
        obtain ⟨h1, h2⟩ := hbt
        subst h1; subst h2
        have hw1 := hwf (PSlot.one n) (List.mem_cons_self _ rest)
        obtain ⟨hmono1, hc1, hsb1⟩ := HP n meta c metam hw1.1 hw1.2 hcache hcb
        obtain ⟨hmono2, hc2, hsb2⟩ := buildTypesGo_built ctx fuel HP rest
          metam cs2 metaF hc1
          (fun s hs => hwf s (List.mem_cons_of_mem _ hs)) hrec
        exact ⟨le_trans hmono1 hmono2, hc2,
          ⟨metam.gen, hmono1, hmono2, hsb1, hsb2⟩⟩
  | PSlot.texts ts :: rest, meta, cs, meta2, hcache, hwf, hbt => by
    simp only [buildTypesGo] at hbt
    have hw1 := hwf (PSlot.texts ts) (List.mem_cons_self _ rest)
    obtain ⟨c, metam, hctn, hsb1, hc1, hgen1⟩ :=
      textSlot_built ctx fuel ts meta hcache hw1
    rw [hctn] at hbt
    simp only [] at hbt
    cases hrec : buildTypesGo (fun slot m =>
        match slot with
        | PSlot.texts ts => some (createTypeFromTextNodes ctx ts m)
        | PSlot.one n => createTypeFromElementNode ctx fuel n m) rest
        metam with
    | none => rw [hrec] at hbt; exact absurd hbt (by simp)
    | some q =>
      obtain ⟨cs2, metaF⟩ := q
      rw [hrec] at hbt
      simp only [Option.map_some', Option.some.injEq, Prod.mk.injEq] at hbt
      obtain ⟨h1, h2⟩ := hbt
      subst h1; subst h2
      have hmono1 : meta.gen ≤ metam.gen := by omega
      obtain ⟨hmono2, hc2, hsb2⟩ := buildTypesGo_built ctx fuel HP rest
        metam cs2 metaF hc1
        (fun s hs => hwf s (List.mem_cons_of_mem _ hs)) hrec
      exact ⟨le_trans hmono1 hmono2, hc2,
        ⟨metam.gen, hmono1, hmono2, hsb1, hsb2⟩⟩

theorem WFP_node_inv (ctx : Ctx) (name : String)
    (attrs : List (String × AVal)) (marks : List Mark) (content : PList)
    (h : WFP ctx (.node name attrs marks content)) :
    NodeAttrsOk attrs ∧ NodeMarksOk ctx marks ∧
    ctx.schemaValid name content.toList = true ∧ WFPL ctx content := by
  cases h with
  | node a b c d e f g i => exact ⟨e, f, g, i⟩

theorem markKeys_nodup (marks : List Mark)
    (hnd : (marks.map Mark.typeName).Nodup) :
    ((nodeMarkAttrsCanon marks).map Prod.fst).Nodup := by
  have h1 : (nodeMarkAttrsCanon marks).map Prod.fst =
      marks.map (fun m => markPrefixStr ++ m.typeName) := by
    simp [nodeMarkAttrsCanon]
  rw [h1]
  have h2 : marks.map Mark.typeName =
      (marks.map (fun m => markPrefixStr ++ m.typeName)).map stripMarkKey := by
    rw [List.map_map]
    exact List.map_congr_left (fun m _ => (stripMarkKey_append m.typeName).symm)
  rw [h2] at hnd
  exact hnd.of_map

theorem createType_roundtrip (ctx : Ctx) : ∀ (fuel : Nat) (T : PNode)
    (meta : Meta) (yt : YNode) (meta2 : Meta),
    WFP ctx T → T.isText = false → CacheOk ctx meta →
    createTypeFromElementNode ctx fuel T meta = some (yt, meta2) →
    meta.gen ≤ meta2.gen ∧ CacheOk ctx meta2 ∧
    SlotBuilt ctx fuel meta.gen meta2.gen (.one T) yt := by
  intro fuel
  induction fuel with
  | zero =>
    intro T meta yt meta2 _ _ _ h
    exact absurd h (by simp [createTypeFromElementNode])
  | succ fuel ih =>
    intro T meta yt meta2 hwfp htext hcache hfwd
    cases T with
    | text s ms => simp [PNode.isText] at htext
    | node name attrs marks content =>
      obtain ⟨hattrs, hmarksOk, hvalid, hwfl⟩ :=
        WFP_node_inv ctx name attrs marks content hwfp
      obtain ⟨hall, hchain⟩ := WFPL_facts ctx content hwfl
      have hslotswf : ∀ s2 ∈ normalizePNodeContent
          (PNode.node name attrs marks content), SlotWF ctx s2 := by
        intro s2 hs2
        exact slotWF_normGo ctx content.toList [] hall
          (fun n hn => absurd hn (List.not_mem_nil n))
          (by simpa using hchain) s2 hs2
      simp only [createTypeFromElementNode, PNode.attrsList, PNode.marksList,
        PNode.typeName] at hfwd
      cases hbt : buildTypesGo (fun slot m =>
          match slot with
          | PSlot.texts ts => some (createTypeFromTextNodes ctx ts m)
          | PSlot.one n => createTypeFromElementNode ctx fuel n m)
          (normalizePNodeContent (PNode.node name attrs marks content))
          { meta with gen := meta.gen + 1 } with
      | none =>
        rw [hbt] at hfwd
        exact absurd hfwd (by simp)
      | some r =>
        obtain ⟨cs, metaC⟩ := r
        rw [hbt] at hfwd
        simp only [Option.map_some', Option.some.injEq, Prod.mk.injEq] at hfwd
        obtain ⟨hyt, hm2⟩ := hfwd
        have hcache1 : CacheOk ctx { meta with gen := meta.gen + 1 } := hcache
        obtain ⟨hmono, hcC, hsbC⟩ := buildTypesGo_built ctx fuel
          (fun T m y m2 a b c d => ih T m y m2 a b c d)
          (normalizePNodeContent (PNode.node name attrs marks content))
          { meta with gen := meta.gen + 1 } cs metaC hcache1 hslotswf hbt
        have hmono2 : meta.gen + 1 ≤ metaC.gen := hmono
        have ha1 : List.foldl (fun acc kv =>
            if kv.2 != AVal.null && kv.1 != "ychange" then
              objSet acc kv.1 kv.2 else acc) [] attrs = attrs := by
          have := foldl_objSet_cond_append
            (fun kv => kv.2 != AVal.null && kv.1 != "ychange") attrs []
            (fun kv hkv => by
              have h1 := (hattrs.1 kv hkv).1
              have h2 := (hattrs.1 kv hkv).2.1
              simp [h1, h2])
            (fun kv _ kv2 hkv2 => absurd hkv2 (List.not_mem_nil kv2))
            hattrs.2
          simpa using this
        have hmcanon : nodeMarksToAttributes marks = nodeMarkAttrsCanon marks :=
          nodeMarksToAttributes_canon marks (fun m hm => (hmarksOk.1 m hm).1)
            hmarksOk.2
        have ha2 : List.foldl (fun acc kv => objSet acc kv.1 kv.2)
            (List.foldl (fun acc kv =>
              if kv.2 != AVal.null && kv.1 != "ychange" then
                objSet acc kv.1 kv.2 else acc) [] attrs)
            (nodeMarksToAttributes marks) =
            attrs ++ nodeMarkAttrsCanon marks := by
          rw [ha1, hmcanon]
          exact foldl_objSet_append (nodeMarkAttrsCanon marks) attrs
            (fun kv hkv kv2 hkv2 => by
              obtain ⟨m, hm, hkveq⟩ := List.mem_map.mp hkv
              intro hcontra
              have hsw1 := (hmarksOk.1 m hm).2.2
              have hsw2 := (hattrs.1 kv2 hkv2).2.2
              rw [← hkveq] at hcontra
              simp only [] at hcontra
              rw [hcontra] at hsw1
              rw [hsw1] at hsw2
              exact Bool.noConfusion hsw2)
            (markKeys_nodup marks hmarksOk.2)
        rw [ha2] at hyt
        subst hyt
        subst hm2
        have hflat : flattenSlots (normalizePNodeContent
            (PNode.node name attrs marks content)) = content.toList := by
          have := flatten_normGo content.toList []
          simpa [normalizePNodeContent, PNode.contentList] using this
        refine ⟨?_, ?_, ?_⟩
        · show meta.gen ≤ metaC.gen
          omega
        · exact hcC
        · refine ⟨⟨meta.gen, ctx.clientID, name, attrs ++ nodeMarkAttrsCanon marks,
            YList.ofList cs, rfl⟩, le_refl _, by show meta.gen < metaC.gen; omega,
            ?_, ?_⟩
          · intro meta3 hnone3
            obtain ⟨meta4c, hbuildC, hframeC⟩ := buildChildren_rebuild ctx fuel
              (normalizePNodeContent (PNode.node name attrs marks content)) cs
              (meta.gen + 1) metaC.gen meta3 hsbC
              (by simpa [normalizePNodeContent, PNode.contentList] using
                noTwoTexts_normGo content.toList [])
              (fun k hk1 hk2 => hnone3 k (by omega) hk2)
            refine ⟨mappingSet meta4c meta.gen
              (.single (PNode.node name attrs marks content)), ?_, ?_⟩
            · simp only [createNodeFromYElement, ylist_toList_ofList,
                List.length_map, hbuildC]
              have hna : List.foldl (fun acc kv =>
                  if kv.1.startsWith markPrefixStr then acc
                  else objSet acc kv.1 kv.2) []
                  (attrs ++ nodeMarkAttrsCanon marks) = attrs := by
                rw [List.foldl_append]
                rw [foldl_objSet_skipIf (fun kv => kv.1.startsWith markPrefixStr)
                  attrs [] (fun kv hkv => (hattrs.1 kv hkv).2.2)
                  (fun kv _ kv2 hkv2 => absurd hkv2 (List.not_mem_nil kv2))
                  hattrs.2]
                rw [List.nil_append]
                exact foldl_objSet_skipAll _ (nodeMarkAttrsCanon marks) attrs
                  (fun kv hkv => by
                    obtain ⟨m, hm, hkveq⟩ := List.mem_map.mp hkv
                    rw [← hkveq]
                    exact (hmarksOk.1 m hm).2.2)
              have hnm : List.foldl (fun acc kv =>
                  if kv.1.startsWith markPrefixStr then
                    match acc with
                    | none => none
                    | some ms =>
                      if isObjectA kv.2 then
                        let markName := stripMarkKey kv.1
                        match ctx.schemaMark markName with
                        | none => none
                        | some exc =>
                          some (ms ++ [Mark.mk markName exc
                            (avalFields ((objGet (avalFields kv.2)
                              "attrs").getD AVal.null))])
                      else some ms
                  else acc) (some [])
                  (attrs ++ nodeMarkAttrsCanon marks) = some marks := by
                rw [List.foldl_append]
                rw [decodeMarksFold_skip ctx attrs (some [])
                  (fun kv hkv => (hattrs.1 kv hkv).2.2)]
                have := decodeMarksFold_marks ctx marks []
                  (fun m hm => ⟨(hmarksOk.1 m hm).2.1, (hmarksOk.1 m hm).2.2⟩)
                simpa using this
              rw [hna, hnm, hflat, hvalid]
              simp only [if_true, plist_ofList_toList]
            · intro k hk
              rw [mappingGet_set_ne meta4c meta.gen k _ (by
                show k ≠ meta.gen
                rcases hk with h1 | h1
                · omega
                · have : metaC.gen ≤ k := h1
                  omega)]
              exact hframeC k (by
                rcases hk with h1 | h1
                · exact Or.inl (by omega)
                · exact Or.inr h1)
          · exact equalYTypePNode_node ctx fuel meta.gen ctx.clientID name
              attrs marks content cs (meta.gen + 1) metaC.gen hattrs hmarksOk
              hsbC

/-- Claim C1 as frozen is false on the code: the overlap rules permit two
instances of an overlapping mark type (one that does not exclude itself)
with different attribute maps on one text node, and the forward converter
encodes them as two distinct hash-suffixed format attributes; rebuilding
from the shared type even returns the original node exactly; but the
structural-equality oracle resolves every format attribute through
pmarks.find by the decoded type name, so both attributes are compared
against the first mark instance and equalYTypePNode reports inequality. -/
theorem C1_roundtrip_counterexample :
    createTypeFromElementNode ctxOverlap 1 pOverlap (Meta.mk [] [] 0) =
      some (ytOverlap,
        Meta.mk [(1, MapVal.texts [PNode.text "hi" [markOv1, markOv2]]),
          (0, MapVal.single pOverlap)] [("em", true)] 2) ∧
    createNodeFromYElement ctxOverlap 1 ytOverlap (Meta.mk [] [] 0) =
      some (ytOverlap, some pOverlap,
        Meta.mk [(0, MapVal.single pOverlap)] [] 0) ∧
    equalYTypePNode 3 ytOverlap (PSlot.one pOverlap) = some false :=
  ⟨by decide, by decide, by decide⟩

/-- Claim C1, amended to the code: the round-trip holds for editable
subtrees whose nodes carry at most one instance of each mark type, along
with the encoding hygiene of WFP (schema-known marks, clean attributes,
schema-valid content, nonempty text runs with separated adjacent
formats).  Converting such a subtree with createTypeFromElementNode and
rebuilding from the produced shared type with createNodeFromYElement on a
fresh mapping returns exactly the original node, and the
structural-equality oracle judges the shared type equal to it.  With two
instances of one overlapping mark type on a single text node the oracle
instead reports inequality, as the counterexample shows. -/
theorem C1_roundtrip (ctx : Ctx) (fuel : Nat) (T : PNode) (meta : Meta)
    (yt : YNode) (meta2 : Meta)
    (hwf : WFP ctx T) (helem : T.isText = false)
    (hcache : CacheOk ctx meta)
    (hfwd : createTypeFromElementNode ctx fuel T meta = some (yt, meta2)) :
    ∃ meta4, createNodeFromYElement ctx fuel yt (Meta.mk [] [] 0) =
        some (yt, some T, meta4) ∧
      equalYTypePNode (fuel + 2) yt (PSlot.one T) = some true := by
  obtain ⟨_, _, hsb⟩ :=
    createType_roundtrip ctx fuel T meta yt meta2 hwf helem hcache hfwd
  obtain ⟨hshape, hid1, hid2, hreb, heq⟩ := hsb
  obtain ⟨meta4, hbuild, _⟩ := hreb (Meta.mk [] [] 0) (fun k _ _ => rfl)
  exact ⟨meta4, hbuild, heq⟩

theorem C1_roundtrip_witness :
    ∃ meta4, createNodeFromYElement ctxSample 1 ytSample (Meta.mk [] [] 0) =
        some (ytSample, some pSample, meta4) ∧
      equalYTypePNode 3 ytSample (PSlot.one pSample) = some true :=
  C1_roundtrip ctxSample 1 pSample (Meta.mk [] [] 0) ytSample
    (Meta.mk [(1, MapVal.texts [PNode.text "hi" [Mark.mk "em" true []],
        PNode.text "yo" []]),
      (0, MapVal.single pSample)] [("em", false)] 2)
    (WFP.node ctxSample "p" [("k", AVal.int 3)] []
      (PList.ofList [PNode.text "hi" [Mark.mk "em" true []],
        PNode.text "yo" []])
      ⟨by decide, by decide⟩
      ⟨by decide, by decide⟩
      (by decide)
      (WFPL.cons ctxSample _ _
        (WFP.text ctxSample "hi" [Mark.mk "em" true []] (by decide)
          ⟨by decide, by decide, by decide, by decide, by decide⟩)
        (by intro h
            exact absurd (h.1 ("em", AVal.obj AFields.nil) (by decide))
              (by decide))
        (WFPL.cons ctxSample _ _
          (WFP.text ctxSample "yo" [] (by decide)
            ⟨by decide, by decide, by decide, by decide, by decide⟩)
          trivial
          (WFPL.nil ctxSample))))
    (by decide)
    (fun p hp => absurd hp (List.not_mem_nil p))
    (by decide)
